import Mathlib

/-!  Verification development for the graph-sparsifier repository
     (src/Cut_Sparsifier.py, src/Flow_Sparsifier.py, src/Mimicking_Networks.py).

     The Python code is shallowly embedded into Lean: networkx graphs become
     explicit node/edge lists (insertion order preserved), Python dicts become
     association lists, float capacities become rationals, and Python
     exceptions (ZeroDivisionError, KeyError, NetworkXError) become `none` /
     `Except.error` results.  The external networkx capabilities (shortest
     paths, minimum cut, spanning tree, connected components), which the spec
     treats as an assumed-correct external capability (spec section 6), are
     embedded as executable reference implementations of the same
     mathematical functions.  Randomness (shuffle order, random radii) is
     injected explicitly as arguments, matching the spec's injected
     pseudo-random-generator model (spec section 9). -/

/-- Undirected capacitated graph: a node list and an edge list
`(u, v, capacity)`, mirroring a networkx `Graph` with insertion order kept.
Each undirected edge is stored once, as networkx reports it in `G.edges`. -/
structure Graph (α : Type) where
  nodes : List α
  edges : List (α × α × ℚ)
deriving DecidableEq

/-- Association-list lookup, the embedding of a Python dict read
(`d[k]` succeeding iff the result is `some`). -/
def alookup {α β : Type} [DecidableEq α] : List (α × β) → α → Option β
  | [], _ => none
  | p :: ps, a => if p.1 = a then some p.2 else alookup ps a

/-- Association-list insert-or-update, the embedding of a Python dict write
`d[k] = v` (insertion order preserved, updates in place). -/
def insUpd {α β : Type} [DecidableEq α] : List (α × β) → α → β → List (α × β)
  | [], a, b => [(a, b)]
  | p :: ps, a, b => if p.1 = a then (a, b) :: ps else p :: insUpd ps a b

/-- All subsets of a list (the collection enumerated by the nested
`itertools.combinations` loops; only the collection matters, not its order). -/
def subsetsOf {α : Type} : List α → List (List α)
  | [] => [[]]
  | a :: as => subsetsOf as ++ (subsetsOf as).map (fun s => a :: s)

/-- List elements paired with their 0-based index from `i`, the embedding of
Python's `enumerate`. -/
def enumIdx {α : Type} (i : ℕ) : List α → List (ℕ × α)
  | [] => []
  | a :: as => (i, a) :: enumIdx (i + 1) as

/-- Boolean membership test via decidable equality. -/
def memB {α : Type} [DecidableEq α] (x : α) (l : List α) : Bool := decide (x ∈ l)

/-- Sum of all edge capacities of a graph (used for the supersource BIG value). -/
def sumCaps {α : Type} (G : Graph α) : ℚ :=
  G.edges.foldl (fun s e => s + e.2.2) 0

/-- An unordered node pair stored in sorted order, the embedding of
Python's `tuple(sorted((u, v)))`. -/
def sortedPair (a b : ℕ) : ℕ × ℕ :=
  if a ≤ b then (a, b) else (b, a)

/-- Whether edge `e` crosses the vertex set `A` (exactly one endpoint inside). -/
def crossesSet {α : Type} [DecidableEq α] (A : List α) (e : α × α × ℚ) : Bool :=
  xor (decide (e.1 ∈ A)) (decide (e.2.1 ∈ A))

/-- Total capacity of the cut induced by vertex side `A`. -/
def cutValue {α : Type} [DecidableEq α] (G : Graph α) (A : List α) : ℚ :=
  (G.edges.filter (crossesSet A)).foldl (fun s e => s + e.2.2) 0

/-- Minimum s-t cut by exhaustive minimisation over all vertex sides.
Embeds the external `nx.minimum_cut` capability (spec section 6, assumed
correct); it returns the cut value together with the source-side partition.
On the perturbed graphs used by the mimicking-network builder the minimiser
is unique (that is the purpose of the perturbation), so the choice among
minimisers made by networkx and by this enumeration coincide there. -/
def minCutPartition {α : Type} [DecidableEq α] (G : Graph α) (s t : α) : ℚ × List α :=
  let cands := (subsetsOf G.nodes).filter (fun A => decide (s ∈ A) && decide (t ∉ A))
  match cands with
  | [] => (0, [])
  | c :: cs =>
      cs.foldl (fun best A =>
        let v := cutValue G A
        if v < best.1 then (v, A) else best) (cutValue G c, c)

/-- Minimum cut value separating a pair of nodes. -/
def minCutValue {α : Type} [DecidableEq α] (G : Graph α) (s t : α) : ℚ :=
  (minCutPartition G s t).1

/-- One expansion step of a reachable set along the edge list. -/
def closureStep {α : Type} [DecidableEq α] (es : List (α × α × ℚ)) (c : List α) : List α :=
  es.foldl (fun acc e =>
    if e.1 ∈ acc ∧ e.2.1 ∉ acc then acc ++ [e.2.1]
    else if e.2.1 ∈ acc ∧ e.1 ∉ acc then acc ++ [e.1]
    else acc) c

/-- Repeated expansion, one round per element of the driver list. -/
def closureRounds {α : Type} [DecidableEq α] (es : List (α × α × ℚ)) :
    List α → List α → List α
  | [], c => c
  | _ :: rest, c => closureRounds es rest (closureStep es c)

/-- Vertices reachable from `v` in `G` (`|nodes|` saturating expansion rounds,
enough to reach a fixpoint).  Embeds the external connected-components /
reachability capability. -/
def closureOf {α : Type} [DecidableEq α] (G : Graph α) (v : α) : List α :=
  closureRounds G.edges G.nodes [v]

/-- Worker for `componentsOf`: scan nodes in order, opening a new component
at each yet-unvisited node, as `nx.connected_components` does. -/
def componentsGo {α : Type} [DecidableEq α] (G : Graph α) :
    List α → List α → List (List α)
  | [], _ => []
  | n :: rest, visited =>
      if n ∈ visited then componentsGo G rest visited
      else closureOf G n :: componentsGo G rest (visited ++ closureOf G n)

/-- Connected components of a graph, in first-node order.  Embeds the
external `nx.connected_components` capability. -/
def componentsOf {α : Type} [DecidableEq α] (G : Graph α) : List (List α) :=
  componentsGo G G.nodes []

/-! ### Mimicking_Networks.py -/

/-- The fixed `eps = 1e-6` of `_unique_perturbation`. -/
def pertEps : ℚ := 1 / 1000000

/-- Edge list after the uniqueness perturbation: edge number `idx` (0-based)
gains `(idx + 1) * (eps / m)`, exactly as `_unique_perturbation` writes it. -/
def perturbEdges (G : Graph ℕ) : List (ℕ × ℕ × ℚ) :=
  (enumIdx 0 G.edges).map
    (fun p => (p.2.1, p.2.2.1, p.2.2.2 + (p.1 + 1 : ℚ) * (pertEps / (G.edges.length : ℚ))))

/-- Embedding of `_unique_perturbation` applied to a fresh copy of the graph.
Python computes `delta = eps / m` with `m = G.number_of_edges()`; on a graph
with zero edges this raises `ZeroDivisionError`, embedded as `none`. -/
def perturb (G : Graph ℕ) : Option (Graph ℕ) :=
  if G.edges.length = 0 then none
  else some ⟨G.nodes, perturbEdges G⟩

/-- Embedding of `_min_cut_sets`: supersource/supersink construction with
`BIG = sum of capacities + 1`, minimum cut between the two auxiliary nodes,
auxiliary nodes discarded from both sides of the returned partition. -/
def minCutSets (G : Graph ℕ) (S T : List ℕ) : ℚ × List ℕ × List ℕ :=
  let big := sumCaps G + 1
  let aux : Graph (ℕ ⊕ Bool) :=
    ⟨G.nodes.map Sum.inl ++ [Sum.inr true, Sum.inr false],
     G.edges.map (fun e => (Sum.inl e.1, Sum.inl e.2.1, e.2.2))
       ++ S.map (fun v => (Sum.inr true, Sum.inl v, big))
       ++ T.map (fun v => (Sum.inr false, Sum.inl v, big))⟩
  let r : ℚ × List (ℕ ⊕ Bool) := minCutPartition aux (Sum.inr true) (Sum.inr false)
  let unInl : ℕ ⊕ Bool → Option ℕ := fun x =>
    match x with | Sum.inl v => some v | Sum.inr _ => none
  let A := r.2.filterMap unInl
  let B := (aux.nodes.filter (fun x => !(memB x r.2))).filterMap unInl
  (r.1, A, B)

/-- Accumulate into `acc` the sorted pairs of the edges of `G` crossing
between `A` and `B`, as the nested `for u in A / for v in G[u]` loop does
(set semantics: each pair recorded once). -/
def crossAdd (G : Graph ℕ) (A B : List ℕ) (acc : List (ℕ × ℕ)) : List (ℕ × ℕ) :=
  G.edges.foldl (fun acc e =>
    if ((e.1 ∈ A ∧ e.2.1 ∈ B) ∨ (e.2.1 ∈ A ∧ e.1 ∈ B)) ∧ sortedPair e.1 e.2.1 ∉ acc
    then acc ++ [sortedPair e.1 e.2.1] else acc) acc

/-- The union Ė of crossing-edge sets over all non-trivial bipartitions
(S, K \ S) of the terminal list (sizes 1 .. k-1), as the double loop
`for r in range(1, len(K)) / for subset in combinations(K, r)` produces.
Ė is a set, so the enumeration order does not affect the result. -/
def cutEdgeUnion (G : Graph ℕ) (K : List ℕ) : List (ℕ × ℕ) :=
  ((subsetsOf K).filter (fun S => decide (S ≠ []) && decide (S.length < K.length))).foldl
    (fun acc S =>
      let T := K.filter (fun t => decide (t ∉ S))
      let r := minCutSets G S T
      crossAdd G r.2.1 r.2.2 acc) []

/-- Labels of the contracted graph: `Sum.inl t` is a terminal name, and
`Sum.inr idx` is the synthetic label `f"c{idx}"`. -/
abbrev MLabel : Type := ℕ ⊕ ℕ

/-- Component label: `next(iter(comp & terminals), f"c{idx}")` — a terminal
of the component when one exists (first in component order; the Python set
iteration order is unspecified, and every use in this development has at
most one terminal per component), else the synthetic label `idx`. -/
def labelOfComp (terminals : List ℕ) (idx : ℕ) (comp : List ℕ) : MLabel :=
  match comp.filter (fun n => decide (n ∈ terminals)) with
  | [] => Sum.inr idx
  | t :: _ => Sum.inl t

/-- The `repr_of` map original node → component label, as an assoc list. -/
def buildRepr (terminals : List ℕ) (comps : List (List ℕ)) : List (ℕ × MLabel) :=
  (enumIdx 0 comps).foldl
    (fun acc p => acc ++ p.2.map (fun n => (n, labelOfComp terminals p.1 p.2))) []

/-- Append a node unless already present (`H.add_node` / `add_edge` semantics). -/
def addNode {α : Type} [DecidableEq α] (ns : List α) (a : α) : List α :=
  if a ∈ ns then ns else ns ++ [a]

/-- Whether the unordered pairs {a, b} and {x, y} coincide. -/
def pmatchB {α : Type} [DecidableEq α] (a b x y : α) : Bool :=
  (decide (a = x) && decide (b = y)) || (decide (a = y) && decide (b = x))

/-- Add `w` to the aggregate capacity between `a` and `b` in an undirected
edge list (`H[a][b] += w` when the edge exists, `H.add_edge(a, b, w)` else). -/
def bumpEdge {α : Type} [DecidableEq α] :
    List (α × α × ℚ) → α → α → ℚ → List (α × α × ℚ)
  | [], a, b, w => [(a, b, w)]
  | e :: es, a, b, w =>
      if pmatchB e.1 e.2.1 a b then (e.1, e.2.1, e.2.2 + w) :: es
      else e :: bumpEdge es a b w

/-- Aggregate capacity of the unordered pair {a, b} in an undirected edge
list, defaulting to 0 (the `defaultdict(float)` / absent-edge behaviour). -/
def capOf {α : Type} [DecidableEq α] (es : List (α × α × ℚ)) (a b : α) : ℚ :=
  match es.find? (fun e => pmatchB e.1 e.2.1 a b) with
  | some e => e.2.2
  | none => 0

/-- Graph-building fold of the capacity-rebuild loop: self-loop pairs are
skipped, everything else aggregated. -/
def aggFold {α : Type} [DecidableEq α] (H : Graph α) (ls : List (α × α × ℚ)) : Graph α :=
  ls.foldl (fun H l =>
    if l.1 = l.2.1 then H
    else ⟨addNode (addNode H.nodes l.1) l.2.1, bumpEdge H.edges l.1 l.2.1 l.2.2⟩) H

/-- Option-valued map over a list; `none` as soon as one element fails.
Embeds a Python loop whose body may raise (first failure aborts). -/
def mapOpt {α β : Type} (f : α → Option β) : List α → Option (List β)
  | [] => some []
  | a :: as =>
      match f a, mapOpt f as with
      | some b, some bs => some (b :: bs)
      | _, _ => none

/-- Label both endpoints of an edge through the `repr_of` map; `none` is the
`KeyError` of `repr_of[u]` on a missing key. -/
def labelEdge (reprL : List (ℕ × MLabel)) (e : ℕ × ℕ × ℚ) :
    Option (MLabel × MLabel × ℚ) :=
  match alookup reprL e.1, alookup reprL e.2.1 with
  | some a, some b => some (a, b, e.2.2)
  | _, _ => none

/-- Capacity-rebuild step of `mimicking_network`: every edge of the perturbed
graph is mapped through `repr_of` and aggregated between the two component
labels, skipping intra-component pairs.  (The Python loop interleaves lookup
and aggregation; looking all edges up first is equivalent: it fails iff some
lookup fails, and on success performs the same fold.) -/
def rebuildH (G1 : Graph ℕ) (reprL : List (ℕ × MLabel)) (H0nodes : List MLabel) :
    Option (Graph MLabel) :=
  (mapOpt (labelEdge reprL) G1.edges).map (aggFold ⟨H0nodes, []⟩)

/-- The graph `G_minus`: the perturbed copy with every edge whose sorted
pair is NOT in Ė removed (i.e. keeping exactly the Ė edges, as the loop
`if tuple(sorted((u, v))) not in Ė: G_minus.remove_edge(u, v)` does). -/
def mimickingGminus (G1 : Graph ℕ) (terminals : List ℕ) : Graph ℕ :=
  ⟨G1.nodes, G1.edges.filter (fun e => decide (sortedPair e.1 e.2.1 ∈ cutEdgeUnion G1 terminals))⟩

/-- The `repr_of` map of `mimicking_network`, built from the connected
components of `G_minus`. -/
def mimickingRepr (G1 : Graph ℕ) (terminals : List ℕ) : List (ℕ × MLabel) :=
  buildRepr terminals (componentsOf (mimickingGminus G1 terminals))

/-- The node labels added to `H` (one `H.add_node(label)` per component). -/
def mimickingH0 (G1 : Graph ℕ) (terminals : List ℕ) : List MLabel :=
  (enumIdx 0 (componentsOf (mimickingGminus G1 terminals))).map
    (fun p => labelOfComp terminals p.1 p.2)

/-- The part of `mimicking_network` operating on the perturbed copy:
cut enumeration, deletion, contraction and capacity rebuild. -/
def mimickingCore (G1 : Graph ℕ) (terminals : List ℕ) :
    Option (Graph MLabel × List (ℕ × MLabel)) :=
  match rebuildH G1 (mimickingRepr G1 terminals) (mimickingH0 G1 terminals) with
  | none => none
  | some H => some (H, mimickingRepr G1 terminals)

/-- Embedding of `mimicking_network`, also returning the final value of the
input graph object (the Python function mutates only private copies:
`G = G_in.copy()` is perturbed in place, `aux` and `G_minus` are further
copies; the input binding `G_in` is never written through).  The first
component is the returned `(H, repr_of)` pair, `none` embedding an uncaught
exception; the second component is the state of `G_in` after the call. -/
def mimickingNetworkTrace (G_in : Graph ℕ) (terminals : List ℕ) :
    Option (Graph MLabel × List (ℕ × MLabel)) × Graph ℕ :=
  match perturb G_in with
  | none => (none, G_in)
  | some G => (mimickingCore G terminals, G_in)

/-- The `(H, repr_of)` result of `mimicking_network`. -/
def mimickingNetwork (G_in : Graph ℕ) (terminals : List ℕ) :
    Option (Graph MLabel × List (ℕ × MLabel)) :=
  (mimickingNetworkTrace G_in terminals).1

/-- Sum of the capacities of the edges of `es` whose endpoint labels under
`reprL` form exactly the unordered pair {a, b}. -/
def labelPairSum (es : List (ℕ × ℕ × ℚ)) (reprL : List (ℕ × MLabel)) (a b : MLabel) : ℚ :=
  (es.filter (fun e =>
    match labelEdge reprL e with
    | some l => pmatchB l.1 l.2.1 a b
    | none => false)).foldl (fun s e => s + e.2.2) 0

/-- The 3-vertex path graph 0 - 1 - 2 with capacities 1 and 2, used as a
concrete input for the mimicking-network claims. -/
def pathG : Graph ℕ := ⟨[0, 1, 2], [(0, 1, 1), (1, 2, 2)]⟩

/-! ### General lemmas about the capacity-aggregation fold -/

/-- Unordered-pair matching is symmetric in its two pair arguments. -/
lemma pmatchB_symm {α : Type} [DecidableEq α] (a b x y : α) :
    pmatchB a b x y = pmatchB x y a b := by
  simp only [pmatchB]
  rw [Bool.eq_iff_iff]
  simp only [Bool.or_eq_true, Bool.and_eq_true, decide_eq_true_eq]
  constructor
  · rintro (⟨rfl, rfl⟩ | ⟨rfl, rfl⟩) <;> simp
  · rintro (⟨rfl, rfl⟩ | ⟨rfl, rfl⟩) <;> simp

/-- Unordered-pair matching is transitive across a shared pair. -/
lemma pmatchB_trans {α : Type} [DecidableEq α] {p q a b x y : α}
    (h1 : pmatchB p q a b = true) (h2 : pmatchB a b x y = true) :
    pmatchB p q x y = true := by
  simp only [pmatchB, Bool.or_eq_true, Bool.and_eq_true, decide_eq_true_eq] at *
  rcases h1 with ⟨h, h'⟩ | ⟨h, h'⟩ <;> rcases h2 with ⟨g, g'⟩ | ⟨g, g'⟩ <;>
    subst_eqs <;> simp_all

/-- A self-loop key never matches a pair of distinct labels. -/
lemma pmatchB_diag_false {α : Type} [DecidableEq α] {a b x y : α}
    (hab : a = b) (hxy : x ≠ y) : pmatchB a b x y = false := by
  subst hab
  rcases h : pmatchB a a x y with _ | _
  · rfl
  · simp only [pmatchB, Bool.or_eq_true, Bool.and_eq_true, decide_eq_true_eq] at h
    rcases h with ⟨h1, h2⟩ | ⟨h1, h2⟩
    · exact absurd (h1.symm.trans h2) hxy
    · exact absurd (h2.symm.trans h1) hxy

/-- Aggregate capacity of a cons cell. -/
lemma capOf_cons {α : Type} [DecidableEq α] (e : α × α × ℚ) (es : List (α × α × ℚ))
    (x y : α) :
    capOf (e :: es) x y = if pmatchB e.1 e.2.1 x y then e.2.2 else capOf es x y := by
  rcases h : pmatchB e.1 e.2.1 x y <;> simp [capOf, List.find?, h]

/-- Bumping the pair {a, b} by `w` adds `w` to that pair's aggregate capacity
and leaves every other pair unchanged. -/
lemma capOf_bumpEdge {α : Type} [DecidableEq α] (es : List (α × α × ℚ))
    (a b x y : α) (w : ℚ) :
    capOf (bumpEdge es a b w) x y
      = capOf es x y + (if pmatchB a b x y then w else 0) := by
  induction es with
  | nil =>
      rcases h : pmatchB a b x y <;> simp [bumpEdge, capOf, List.find?, h]
  | cons e es ih =>
      rcases h1 : pmatchB e.1 e.2.1 a b with _ | _
      · rcases h2 : pmatchB e.1 e.2.1 x y with _ | _
        · simp [bumpEdge, h1, h2, capOf_cons, ih]
        · have hxy : pmatchB a b x y = false := by
            rcases h3 : pmatchB a b x y with _ | _
            · rfl
            · have h4 : pmatchB e.1 e.2.1 a b = true :=
                pmatchB_trans h2 (by rw [pmatchB_symm]; exact h3)
              simp [h4] at h1
          simp [bumpEdge, h1, h2, capOf_cons, hxy]
      · rcases h2 : pmatchB e.1 e.2.1 x y with _ | _
        · have hxy : pmatchB a b x y = false := by
            rcases h3 : pmatchB a b x y with _ | _
            · rfl
            · have h4 := pmatchB_trans h1 h3
              simp [h4] at h2
          simp [bumpEdge, h1, h2, capOf_cons, hxy]
        · have hxy : pmatchB a b x y = true :=
            pmatchB_trans (by rw [pmatchB_symm]; exact h1) h2
          simp [bumpEdge, h1, h2, capOf_cons, hxy]

/-- Left fold of capacity addition, written as a sum. -/
lemma foldl_cap_eq_sum {α : Type} (es : List (α × α × ℚ)) (c : ℚ) :
    es.foldl (fun s e => s + e.2.2) c = c + (es.map (fun e => e.2.2)).sum := by
  induction es generalizing c with
  | nil => simp
  | cons e es ih => simp [ih, add_assoc]

lemma aggFold_nil {α : Type} [DecidableEq α] (H : Graph α) : aggFold H [] = H := rfl

lemma aggFold_cons {α : Type} [DecidableEq α] (H : Graph α) (l : α × α × ℚ)
    (ls : List (α × α × ℚ)) :
    aggFold H (l :: ls)
      = aggFold (if l.1 = l.2.1 then H
          else ⟨addNode (addNode H.nodes l.1) l.2.1, bumpEdge H.edges l.1 l.2.1 l.2.2⟩) ls := rfl

/-- The aggregation fold adds, for every unordered pair {x, y} of distinct
labels, exactly the capacities of the list entries carrying that pair. -/
lemma capOf_aggFold {α : Type} [DecidableEq α] (ls : List (α × α × ℚ))
    (H : Graph α) (x y : α) (hxy : x ≠ y) :
    capOf (aggFold H ls).edges x y
      = capOf H.edges x y
        + ((ls.filter (fun l => pmatchB l.1 l.2.1 x y)).map (fun e => e.2.2)).sum := by
  induction ls generalizing H with
  | nil => simp [aggFold]
  | cons l ls ih =>
      rw [aggFold_cons]
      by_cases hl : l.1 = l.2.1
      · rw [if_pos hl, ih H]
        have hfilter := pmatchB_diag_false hl hxy
        simp [hfilter]
      · rw [if_neg hl,
          ih ⟨addNode (addNode H.nodes l.1) l.2.1, bumpEdge H.edges l.1 l.2.1 l.2.2⟩]
        have hb : capOf (bumpEdge H.edges l.1 l.2.1 l.2.2) x y
            = capOf H.edges x y + (if pmatchB l.1 l.2.1 x y then l.2.2 else 0) :=
          capOf_bumpEdge H.edges l.1 l.2.1 x y l.2.2
        rcases h2 : pmatchB l.1 l.2.1 x y with _ | _
        · rw [h2] at hb
          simp only [Bool.false_eq_true, if_false, add_zero] at hb
          simp [hb, h2]
        · rw [h2] at hb
          simp only [if_true] at hb
          simp only [hb, h2, List.filter_cons_of_pos, List.map_cons, List.sum_cons]
          ring
/-! ### Concrete evaluation of the mimicking-network pipeline -/

/-- The perturbed copy of `pathG` (eps = 1e-6, m = 2 edges). -/
def pathGp : Graph ℕ := ⟨[0, 1, 2], [(0, 1, 2000001/2000000), (1, 2, 2000001/1000000)]⟩

/-- The sparsifier H that `mimicking_network` returns on `pathG`. -/
def pathH : Graph MLabel :=
  ⟨[Sum.inl 0, Sum.inl 2], [(Sum.inl 0, Sum.inl 2, 2000001/1000000)]⟩

/-- The `repr_of` map that `mimicking_network` returns on `pathG`:
the kept cut edge (0,1) glues vertices 0 and 1 into the component of
terminal 0, and vertex 2 remains alone. -/
def pathRepr : List (ℕ × MLabel) :=
  [(0, Sum.inl 0), (1, Sum.inl 0), (2, Sum.inl 2)]

lemma perturb_pathG_eval : perturb pathG = some pathGp := by
  norm_num [perturb, pathG, pathGp, perturbEdges, enumIdx, pertEps]

set_option maxHeartbeats 1600000 in
lemma minCutSets_pathGp_20 :
    minCutSets pathGp [2] [0] = (2000001/2000000, [1, 2], [0]) := by
  norm_num [minCutSets, pathGp, minCutPartition, subsetsOf, cutValue, crossesSet,
    sumCaps, memB, List.filter_cons, List.foldl_cons, List.foldl_nil,
    Sum.inl_ne_inr, Sum.inr_ne_inl, Sum.inl.injEq, Sum.inr.injEq,
    List.filterMap_cons, List.filterMap_nil, beq_iff_eq, beq_eq_false_iff_ne]

set_option maxHeartbeats 1600000 in
lemma minCutSets_pathGp_02 :
    minCutSets pathGp [0] [2] = (2000001/2000000, [0], [1, 2]) := by
  norm_num [minCutSets, pathGp, minCutPartition, subsetsOf, cutValue, crossesSet,
    sumCaps, memB, List.filter_cons, List.foldl_cons, List.foldl_nil,
    Sum.inl_ne_inr, Sum.inr_ne_inl, Sum.inl.injEq, Sum.inr.injEq,
    List.filterMap_cons, List.filterMap_nil, beq_iff_eq, beq_eq_false_iff_ne]

set_option maxHeartbeats 800000 in
lemma cutEdgeUnion_pathGp_eval : cutEdgeUnion pathGp [0, 2] = [(0, 1)] := by
  simp only [cutEdgeUnion]
  norm_num [subsetsOf]
  rw [minCutSets_pathGp_20, minCutSets_pathGp_02]
  norm_num [crossAdd, pathGp, sortedPair]

lemma gminus_pathGp_eval :
    mimickingGminus pathGp [0, 2] = ⟨[0, 1, 2], [(0, 1, 2000001/2000000)]⟩ := by
  simp only [mimickingGminus, cutEdgeUnion_pathGp_eval]
  norm_num [pathGp, sortedPair]

lemma comps_pathGp_eval :
    componentsOf (mimickingGminus pathGp [0, 2]) = [[0, 1], [2]] := by
  rw [gminus_pathGp_eval]
  norm_num [componentsOf, componentsGo, closureOf, closureRounds, closureStep]

lemma repr_pathGp_eval : mimickingRepr pathGp [0, 2] = pathRepr := by
  simp only [mimickingRepr, comps_pathGp_eval]
  norm_num [buildRepr, enumIdx, labelOfComp, pathRepr]

lemma h0_pathGp_eval : mimickingH0 pathGp [0, 2] = [Sum.inl 0, Sum.inl 2] := by
  simp only [mimickingH0, comps_pathGp_eval]
  norm_num [enumIdx, labelOfComp]

lemma mimicking_pathG_eval :
    mimickingNetwork pathG [0, 2] = some (pathH, pathRepr) := by
  unfold mimickingNetwork mimickingNetworkTrace
  rw [perturb_pathG_eval]
  simp only [mimickingCore, repr_pathGp_eval, h0_pathGp_eval]
  norm_num [rebuildH, mapOpt, labelEdge, alookup, pathGp, pathRepr, pathH,
    aggFold, addNode, bumpEdge, pmatchB]
/-! ### Further lemmas for the rebuild step -/

lemma perturb_some_edges {G G1 : Graph ℕ} (hp : perturb G = some G1) :
    G1.edges = perturbEdges G := by
  unfold perturb at hp
  split at hp
  · exact absurd hp (by simp)
  · cases hp; rfl

lemma labelEdge_cap (r : List (ℕ × MLabel)) (e : ℕ × ℕ × ℚ) (l : MLabel × MLabel × ℚ)
    (h : labelEdge r e = some l) : l.2.2 = e.2.2 := by
  unfold labelEdge at h
  rcases h1 : alookup r e.1 with _ | x
  · rw [h1] at h; exact absurd h (by simp)
  · rcases h2 : alookup r e.2.1 with _ | y
    · rw [h1, h2] at h; exact absurd h (by simp)
    · rw [h1, h2] at h; cases h; rfl

/-- Looking up all edges first and filtering the labelled list gives the same
capacity multiset, pair by pair, as filtering the raw edges through the
lookup. -/
lemma mapOpt_labelEdge_sums (r : List (ℕ × MLabel)) (a b : MLabel) :
    ∀ (es : List (ℕ × ℕ × ℚ)) (ls : List (MLabel × MLabel × ℚ)),
      mapOpt (labelEdge r) es = some ls →
      ((ls.filter (fun l => pmatchB l.1 l.2.1 a b)).map (fun e => e.2.2)).sum
        = ((es.filter (fun e =>
            match labelEdge r e with
            | some l => pmatchB l.1 l.2.1 a b
            | none => false)).map (fun e => e.2.2)).sum := by
  intro es
  induction es with
  | nil =>
      intro ls h
      simp only [mapOpt, Option.some_inj] at h
      subst h
      simp
  | cons e es ih =>
      intro ls h
      simp only [mapOpt] at h
      rcases hle : labelEdge r e with _ | l <;> rw [hle] at h
      · exact absurd h (by simp)
      · rcases hm : mapOpt (labelEdge r) es with _ | bs <;> rw [hm] at h
        · exact absurd h (by simp)
        · cases h
          have hc : l.2.2 = e.2.2 := labelEdge_cap r e l hle
          rcases hpm : pmatchB l.1 l.2.1 a b with _ | _
          · simp [List.filter_cons, hle, hpm, ih bs hm]
          · simp [List.filter_cons, hle, hpm, ih bs hm, hc]

lemma mimickingNetwork_eq_core {G G1 : Graph ℕ} (K : List ℕ)
    (hp : perturb G = some G1) : mimickingNetwork G K = mimickingCore G1 K := by
  unfold mimickingNetwork mimickingNetworkTrace
  rw [hp]

lemma mimickingNetwork_of_perturb_none {G : Graph ℕ} (K : List ℕ)
    (hp : perturb G = none) : mimickingNetwork G K = none := by
  unfold mimickingNetwork mimickingNetworkTrace
  rw [hp]

/-! ### Claim theorems: C1, C3, C5, C6, C9 -/

/-- C1 (code bug): on the path graph 0-1-2 with capacities 1, 2 and
terminals {0, 2}, the sparsifier H returned by `mimicking_network` has
minimum 0-2 cut value 2 + 1e-6, while the minimum cut separating 0 from 2
in the original input graph is 1; the discrepancy exceeds the perturbation
budget eps, so the claimed exactness (up to the floating perturbation ε)
fails.  (The delete-and-contract step keeps exactly the Ė edges and
contracts the components of the cut-edge graph, merging the two sides of
the minimum cut; the correct construction removes the Ė edges instead.) -/
theorem c1_mimicking_network_not_exact :
    (mimickingNetwork pathG [0, 2]).map
        (fun p => minCutValue p.1 (Sum.inl 0) (Sum.inl 2)) = some (2 + 1/1000000)
    ∧ minCutValue pathG 0 2 = 1
    ∧ ¬ |(2 + 1/1000000 : ℚ) - 1| ≤ pertEps := by
  refine ⟨?_, ?_, ?_⟩
  · rw [mimicking_pathG_eval]
    norm_num [minCutValue, minCutPartition, subsetsOf, cutValue, crossesSet, pathH,
      List.filter_cons, List.foldl_cons, List.foldl_nil,
      Sum.inl_ne_inr, Sum.inr_ne_inl, Sum.inl.injEq, Sum.inr.injEq]
  · norm_num [minCutValue, minCutPartition, subsetsOf, cutValue, crossesSet, pathG,
      List.filter_cons, List.foldl_cons, List.foldl_nil]
  · rw [abs_of_nonneg (by norm_num)]
    norm_num [pertEps]

/-- C3 (counterexample): the aggregate capacity of the single H edge on the
path-graph run is 2 + 1e-6, which is NOT the sum (= 2) of the un-perturbed
capacities of the input edges whose endpoints map to those two labels: the
capacity rebuild loop reads `d[capacity]` from the perturbed copy `G`, so
the uniqueness perturbation does appear in H. -/
theorem c3_claim_counterexample :
    mimickingNetwork pathG [0, 2] = some (pathH, pathRepr)
    ∧ capOf pathH.edges (Sum.inl 0) (Sum.inl 2)
        ≠ labelPairSum pathG.edges pathRepr (Sum.inl 0) (Sum.inl 2) := by
  refine ⟨mimicking_pathG_eval, ?_⟩
  norm_num [capOf, pathH, pathRepr, labelPairSum, pathG, labelEdge, alookup, pmatchB,
    List.find?, List.filter_cons, List.foldl_cons, List.foldl_nil,
    Sum.inl_ne_inr, Sum.inr_ne_inl, Sum.inl.injEq, Sum.inr.injEq]

/-- C3 (amended): whenever `mimicking_network` returns (H, repr_of), every
aggregate capacity of H between two distinct labels a, b equals the sum of
the PERTURBED capacities of those input edges whose endpoints map under
repr_of to exactly {a, b}.  (The claim said un-perturbed; the code reads the
capacities of the perturbed copy, so the perturbation appears in H.) -/
theorem c3_amended_capacities_are_perturbed_sums :
    ∀ (G : Graph ℕ) (K : List ℕ) (H : Graph MLabel) (r : List (ℕ × MLabel)),
      mimickingNetwork G K = some (H, r) →
      ∀ a b : MLabel, a ≠ b →
        capOf H.edges a b = labelPairSum (perturbEdges G) r a b := by
  intro G K H r hmim a b hab
  rcases hp : perturb G with _ | G1
  · rw [mimickingNetwork_of_perturb_none K hp] at hmim
    exact absurd hmim (by simp)
  · rw [mimickingNetwork_eq_core K hp] at hmim
    have hedges : G1.edges = perturbEdges G := perturb_some_edges hp
    unfold mimickingCore at hmim
    rcases hr : rebuildH G1 (mimickingRepr G1 K) (mimickingH0 G1 K) with _ | H1 <;>
      rw [hr] at hmim
    · exact absurd hmim (by simp)
    · simp only [Option.some_inj, Prod.mk.injEq] at hmim
      obtain ⟨rfl, rfl⟩ := hmim
      unfold rebuildH at hr
      rcases hml : mapOpt (labelEdge (mimickingRepr G1 K)) G1.edges with _ | ls <;>
        rw [hml] at hr
      · exact absurd hr (by simp)
      · simp only [Option.map_some', Option.some_inj] at hr
        subst hr
        rw [capOf_aggFold ls ⟨mimickingH0 G1 K, []⟩ a b hab]
        unfold labelPairSum
        rw [foldl_cap_eq_sum, ← hedges,
          mapOpt_labelEdge_sums (mimickingRepr G1 K) a b G1.edges ls hml]
        simp [capOf]

/-- Witness for the amended C3 theorem at the concrete path-graph run. -/
theorem c3_amended_witness :
    capOf pathH.edges (Sum.inl 0) (Sum.inl 2)
      = labelPairSum (perturbEdges pathG) pathRepr (Sum.inl 0) (Sum.inl 2) :=
  c3_amended_capacities_are_perturbed_sums pathG [0, 2] pathH pathRepr
    mimicking_pathG_eval (Sum.inl 0) (Sum.inl 2) (by decide)

/-- The 2-vertex, 1-edge graph used for the degenerate-terminal-set claim. -/
def singleEdgeG : Graph ℕ := ⟨[0, 1], [(0, 1, 1)]⟩

/-- C5 (code bug): with a single terminal {0} on the connected two-vertex
graph, `mimicking_network` succeeds but returns a sparsifier with TWO nodes
(one per vertex of the input: the empty bipartition enumeration leaves
Ė = ∅, so ALL edges are removed and every vertex becomes its own
component), not the trivial single-node sparsifier the claim requires. -/
theorem c5_k_le_one_not_single_node :
    (mimickingNetwork singleEdgeG [0]).map (fun p => p.1.nodes.length) = some 2 := by
  rw [mimickingNetwork_eq_core [0]
    (show perturb singleEdgeG = some ⟨[0, 1], [(0, 1, 1000001/1000000)]⟩ by
      norm_num [perturb, singleEdgeG, perturbEdges, enumIdx, pertEps])]
  norm_num [mimickingCore, mimickingRepr, mimickingGminus, mimickingH0, cutEdgeUnion,
    subsetsOf, componentsOf, componentsGo, closureOf, closureRounds, closureStep,
    buildRepr, enumIdx, labelOfComp, rebuildH, mapOpt, labelEdge, alookup, aggFold,
    addNode, bumpEdge, pmatchB, sortedPair,
    List.filter_cons, List.foldl_cons, List.foldl_nil,
    Sum.inl_ne_inr, Sum.inr_ne_inl, Sum.inl.injEq, Sum.inr.injEq]

/-- The one-vertex, zero-edge graph used for the empty-graph claim. -/
def noEdgeG : Graph ℕ := ⟨[0], []⟩

/-- C6 (code bug): on a graph with zero edges, `_unique_perturbation`
computes `delta = eps / m` with `m = 0` and raises ZeroDivisionError
(embedded as `none`), and `mimicking_network` propagates the failure
instead of short-circuiting to isolated terminal nodes. -/
theorem c6_empty_graph_division_by_zero :
    perturb noEdgeG = none ∧ mimickingNetwork noEdgeG [0] = none := by
  have hp : perturb noEdgeG = none := by norm_num [perturb, noEdgeG]
  exact ⟨hp, mimickingNetwork_of_perturb_none [0] hp⟩

/-- C9 (confirmed): `mimicking_network` never mutates its input graph: the
perturbation and edge deletions are performed on private copies, so the
input graph object after the call is exactly the value it held before —
same node list, same edge list, same capacities. -/
theorem c9_input_graph_not_mutated :
    ∀ (G : Graph ℕ) (K : List ℕ),
      (mimickingNetworkTrace G K).2 = G
      ∧ ((mimickingNetworkTrace G K).2).nodes = G.nodes
      ∧ ((mimickingNetworkTrace G K).2).edges = G.edges := by
  intro G K
  have h : (mimickingNetworkTrace G K).2 = G := by
    unfold mimickingNetworkTrace
    rcases hp : perturb G with _ | G1 <;> rfl
  exact ⟨h, by rw [h], by rw [h]⟩
/-! ### Cut_Sparsifier.py: shortest-path distances (external capability) -/

/-- One relaxation of a distance table along an undirected edge (both
directions); the table is an assoc list, a missing key meaning infinity. -/
def relaxEdge (t : List (ℕ × ℚ)) (e : ℕ × ℕ × ℚ) : List (ℕ × ℚ) :=
  let t1 :=
    match alookup t e.1 with
    | none => t
    | some du =>
        match alookup t e.2.1 with
        | none => insUpd t e.2.1 (du + e.2.2)
        | some dv => if du + e.2.2 < dv then insUpd t e.2.1 (du + e.2.2) else t
  match alookup t1 e.2.1 with
  | none => t1
  | some dv =>
      match alookup t1 e.1 with
      | none => insUpd t1 e.1 (dv + e.2.2)
      | some du => if dv + e.2.2 < du then insUpd t1 e.1 (dv + e.2.2) else t1

/-- One Bellman-Ford pass over all edges. -/
def relaxAll (es : List (ℕ × ℕ × ℚ)) (t : List (ℕ × ℚ)) : List (ℕ × ℚ) :=
  es.foldl relaxEdge t

/-- Repeated passes, one per element of the driver list. -/
def bfRounds (es : List (ℕ × ℕ × ℚ)) : List ℕ → List (ℕ × ℚ) → List (ℕ × ℚ)
  | [], t => t
  | _ :: rest, t => bfRounds es rest (relaxAll es t)

/-- Single-source shortest-path distance table from `s` (|nodes| passes,
exact for the non-negative weights the code assumes).  Embeds the external
`nx.single_source_dijkstra_path_length` / `nx.all_pairs_dijkstra_path_length`
capability (spec section 6, assumed correct). -/
def distTable (G : Graph ℕ) (s : ℕ) : List (ℕ × ℚ) :=
  bfRounds G.edges G.nodes [(s, 0)]

/-- Shortest-path distance from `s` to `v`; `none` when unreachable. -/
def distBF (G : Graph ℕ) (s v : ℕ) : Option ℚ :=
  alookup (distTable G s) v

/-- The vertices within distance `r` of `s`: the key set returned by the
cutoff Dijkstra call in `sample_partition`. -/
def ballOf (G : Graph ℕ) (s : ℕ) (r : ℚ) : List ℕ :=
  G.nodes.filter (fun v =>
    match distBF G s v with
    | some d => decide (d ≤ r)
    | none => false)

/-! ### Cut_Sparsifier.py: sample_partition -/

/-- The `cluster_of` dict: for each terminal in the (injected) shuffled
order, claim every vertex of its ball not already claimed, first come first
served.  The injected `radii` function stands for the random radii
`Delta/2 + random()*Delta/2` of the Python code. -/
def clusterOfFold (G : Graph ℕ) (order : List ℕ) (radii : ℕ → ℚ) : List (ℕ × ℕ) :=
  order.foldl (fun acc t =>
    (ballOf G t (radii t)).foldl (fun acc v =>
      if (alookup acc v).isSome then acc else acc ++ [(v, t)]) acc) []

/-- Whether terminal `t` owns at least one vertex in `cluster_of`. -/
def ownsSome (co : List (ℕ × ℕ)) (t : ℕ) : Bool :=
  co.any (fun p => decide (p.2 = t))

/-- The iteration order of `clusters.items()`: owners appear in claim order
(each owner's first claim happens during its own pass, so owners appear in
shuffle order), followed by the terminals added only by the forced
`clusters[t].add(t)` loop, in terminal order. -/
def clusterKeys (terminals order : List ℕ) (co : List (ℕ × ℕ)) : List ℕ :=
  order.filter (fun t => ownsSome co t)
    ++ terminals.filter (fun t => !(ownsSome co t))

/-- The cluster of terminal `t`: the vertices it claimed, plus `t` itself
(the forced `clusters[t].add(t)`). -/
def clusterSet (G : Graph ℕ) (co : List (ℕ × ℕ)) (t : ℕ) : List ℕ :=
  let base := G.nodes.filter (fun v => decide (alookup co v = some t))
  if t ∈ base then base else base ++ [t]

/-- Embedding of `sample_partition`: the returned `{terminal : set}` dict as
an assoc list in iteration order.  The scale Δ enters only through the
injected radii. -/
def samplePartition (G : Graph ℕ) (terminals order : List ℕ) (radii : ℕ → ℚ) :
    List (ℕ × List ℕ) :=
  let co := clusterOfFold G order radii
  (clusterKeys terminals order co).map (fun t => (t, clusterSet G co t))

/-! ### Cut_Sparsifier.py: connected_zero_extension -/

/-- State of the zero-extension loop: the assignment dict `f` (values are
`some t` for a terminal, `none` embedding Python's `None`) and the
`unmapped` set. -/
structure CZState where
  f : List (ℕ × Option ℕ)
  unmapped : List ℕ
deriving DecidableEq

/-- Neighbours of `v`, in edge-insertion order (networkx adjacency order). -/
def neighborsList (G : Graph ℕ) (v : ℕ) : List ℕ :=
  G.edges.foldr (fun e acc =>
    if e.1 = v then e.2.1 :: acc
    else if e.2.1 = v then e.1 :: acc
    else acc) []

/-- Induced subgraph on a vertex list. -/
def subgraphOn (G : Graph ℕ) (s : List ℕ) : Graph ℕ :=
  ⟨G.nodes.filter (fun v => decide (v ∈ s)),
   G.edges.filter (fun e => decide (e.1 ∈ s) && decide (e.2.1 ∈ s))⟩

/-- Process one residual component: find the first vertex of the component
with a neighbour in `deleted` and take that neighbour's terminal as the
boundary witness (`boundary_term` stays `None` when no such vertex exists —
the code's comment claims it is guaranteed to exist); then map the whole
component to it and remove it from `unmapped`.  The lookup `f[u]` is embedded
with default `none`; `u` is drawn from `deleted`, whose members always carry
an `f` entry (Python would raise KeyError otherwise). -/
def processComp (G : Graph ℕ) (deleted : List ℕ) (st : CZState) (comp : List ℕ) :
    CZState :=
  let boundary : Option ℕ :=
    match comp.find? (fun v => (neighborsList G v).any (fun u => decide (u ∈ deleted))) with
    | none => none
    | some v =>
        match (neighborsList G v).find? (fun u => decide (u ∈ deleted)) with
        | none => none
        | some u => (alookup st.f u).getD none
  ⟨comp.foldl (fun f v => insUpd f v boundary) st.f,
   st.unmapped.filter (fun v => decide (v ∉ comp))⟩

/-- Process one cluster of the current partition: skip clusters that are
fully mapped or fully unmapped, otherwise delete the mapped vertices and
map each connected component of the residual induced subgraph. -/
def processCluster (G : Graph ℕ) (st : CZState) (tc : ℕ × List ℕ) : CZState :=
  let C := tc.2
  let hasMapped := C.any (fun v => decide (v ∉ st.unmapped))
  let hasUnmapped := C.any (fun v => decide (v ∈ st.unmapped))
  if hasMapped && hasUnmapped then
    let deleted := C.filter (fun v => decide (v ∉ st.unmapped))
    let residual := C.filter (fun v => decide (v ∈ st.unmapped))
    if residual.isEmpty then st
    else (componentsOf (subgraphOn G residual)).foldl (processComp G deleted) st
  else st

/-- One scale iteration: sample a partition at scale index `i` (randomness
injected through `rnd i` = (shuffled order, radii)) and process each cluster
in dict order. -/
def scaleStep (G : Graph ℕ) (terminals : List ℕ) (rnd : ℕ → List ℕ × (ℕ → ℚ))
    (i : ℕ) (st : CZState) : CZState :=
  (samplePartition G terminals (rnd i).1 (rnd i).2).foldl (processCluster G) st

/-- Initial state: `f = {t: t}`, `unmapped = V \ K`. -/
def czeInit (G : Graph ℕ) (terminals : List ℕ) : CZState :=
  ⟨terminals.map (fun t => (t, some t)),
   G.nodes.filter (fun v => decide (v ∉ terminals))⟩

/-- The state after `i` scale iterations (whether or not `unmapped` has
already emptied; an iteration on an empty `unmapped` set is a no-op on it). -/
def czeStates (G : Graph ℕ) (terminals : List ℕ) (rnd : ℕ → List ℕ × (ℕ → ℚ)) :
    ℕ → CZState
  | 0 => czeInit G terminals
  | i + 1 => scaleStep G terminals rnd i (czeStates G terminals rnd i)

/-- The while loop `while unmapped:`, driven by an explicit list of scale
indices (the Python loop runs unboundedly; a run that exhausts the supplied
scales without emptying `unmapped` is reported as `none`). -/
def czeLoop (G : Graph ℕ) (terminals : List ℕ) (rnd : ℕ → List ℕ × (ℕ → ℚ)) :
    List ℕ → CZState → Option CZState
  | [], st => if st.unmapped.isEmpty then some st else none
  | i :: rest, st =>
      if st.unmapped.isEmpty then some st
      else czeLoop G terminals rnd rest (scaleStep G terminals rnd i st)

/-- The sparsifier built by `connected_zero_extension`: nodes are the
terminals (plus any edge endpoint, which always is a terminal), and each
edge carries (capacity, diagnostic weight = terminal distance). -/
structure HGraph where
  nodes : List ℕ
  edges : List (ℕ × ℕ × ℚ × ℚ)
deriving DecidableEq

/-- Both endpoint assignments of an edge (`f[u]`, `f[v]`; `none` is the
KeyError on a missing key, impossible after the loop has emptied `unmapped`
over the graph's own nodes). -/
def czeLabel (f : List (ℕ × Option ℕ)) (e : ℕ × ℕ × ℚ) :
    Option (Option ℕ × Option ℕ × ℚ) :=
  match alookup f e.1, alookup f e.2.1 with
  | some a, some b => some (a, b, e.2.2)
  | _, _ => none

/-- `capacity[key] += cap` on an assoc list keyed by sorted terminal pairs. -/
def capBump : List ((ℕ × ℕ) × ℚ) → ℕ × ℕ → ℚ → List ((ℕ × ℕ) × ℚ)
  | [], k, w => [(k, w)]
  | p :: ps, k, w => if p.1 = k then (p.1, p.2 + w) :: ps else p :: capBump ps k w

/-- The aggregation loop of the H build: skip pairs with a `None` side or
equal sides, otherwise accumulate under the sorted pair. -/
def czeAggregate (ls : List (Option ℕ × Option ℕ × ℚ)) : List ((ℕ × ℕ) × ℚ) :=
  ls.foldl (fun m l =>
    match l.1, l.2.1 with
    | some t1, some t2 => if t1 = t2 then m else capBump m (sortedPair t1 t2) l.2.2
    | _, _ => m) []

/-- Attach the diagnostic weight `term_dists[t1][t2]` to every aggregated
pair; a missing distance (unreachable pair) is the Python KeyError. -/
def czeHEdges (G : Graph ℕ) (caps : List ((ℕ × ℕ) × ℚ)) :
    Option (List (ℕ × ℕ × ℚ × ℚ)) :=
  mapOpt (fun p =>
    match distBF G p.1.1 p.1.2 with
    | some d => some (p.1.1, p.1.2, p.2, d)
    | none => none) caps

/-- Build the sparsifier H from the final assignment. -/
def czeBuildH (G : Graph ℕ) (terminals : List ℕ) (f : List (ℕ × Option ℕ)) :
    Option HGraph :=
  match mapOpt (czeLabel f) G.edges with
  | none => none
  | some ls =>
      match czeHEdges G (czeAggregate ls) with
      | none => none
      | some hes =>
          some ⟨hes.foldl (fun ns e => addNode (addNode ns e.1) e.2.1) terminals, hes⟩

/-- Embedding of `connected_zero_extension` (randomness injected, scale list
as fuel): returns the assignment dict and the sparsifier. -/
def connectedZeroExtension (G : Graph ℕ) (terminals : List ℕ)
    (rnd : ℕ → List ℕ × (ℕ → ℚ)) (fuel : List ℕ) :
    Option (List (ℕ × Option ℕ) × HGraph) :=
  match czeLoop G terminals rnd fuel (czeInit G terminals) with
  | none => none
  | some st =>
      match czeBuildH G terminals st.f with
      | none => none
      | some H => some (st.f, H)

/-- Adjacency of two vertices in a graph. -/
def adjacent {α : Type} (G : Graph α) (a b : α) : Prop :=
  ∃ c, (a, b, c) ∈ G.edges ∨ (b, a, c) ∈ G.edges

/-- Reachability: the reflexive-transitive closure of adjacency (the notion
of connected component of the input graph). -/
def reach {α : Type} (G : Graph α) : α → α → Prop :=
  Relation.ReflTransGen (adjacent G)
/-! ### Concrete evaluation of connected_zero_extension (claim C2) -/

/-- Connected 4-vertex graph: terminals 0 and 1, auxiliary vertices 2, 3;
weights w(0,2)=1, w(2,1)=3, w(2,3)=4.  Every component contains a terminal. -/
def G4 : Graph ℕ := ⟨[0, 1, 2, 3], [(0, 2, 1), (2, 1, 3), (2, 3, 4)]⟩

/-- Injected randomness for the run on `G4`: shuffle order (0, 1) each
scale, radii Δ/2 at scales 0-2 and (4.5, 7.5) at scale 3 — all realisable
draws of `Delta/2 + random()*Delta/2` with Δ = 2^i. -/
def rnd4 : ℕ → List ℕ × (ℕ → ℚ) := fun i =>
  if i = 0 then ([0, 1], fun _ => 1/2)
  else if i = 1 then ([0, 1], fun _ => 1)
  else if i = 2 then ([0, 1], fun _ => 2)
  else ([0, 1], fun v => if v = 0 then 9/2 else 15/2)

lemma G4_nodes : G4.nodes = [0, 1, 2, 3] := rfl

lemma G4_edges : G4.edges = [(0, 2, 1), (2, 1, 3), (2, 3, 4)] := rfl

lemma rnd4_0 : rnd4 0 = ([0, 1], fun _ => 1/2) := by norm_num [rnd4]

lemma rnd4_1 : rnd4 1 = ([0, 1], fun _ => 1) := by norm_num [rnd4]

lemma rnd4_2 : rnd4 2 = ([0, 1], fun _ => 2) := by norm_num [rnd4]

lemma rnd4_3 : rnd4 3 = ([0, 1], fun v => if v = 0 then 9/2 else 15/2) := by
  norm_num [rnd4]

lemma distTable_G4_0 : distTable G4 0 = [(0, 0), (2, 1), (1, 4), (3, 5)] := by
  norm_num [distTable, G4, bfRounds, relaxAll, relaxEdge, alookup, insUpd,
    List.foldl_cons, List.foldl_nil]

lemma distTable_G4_1 : distTable G4 1 = [(1, 0), (2, 3), (3, 7), (0, 4)] := by
  norm_num [distTable, G4, bfRounds, relaxAll, relaxEdge, alookup, insUpd,
    List.foldl_cons, List.foldl_nil]

lemma ball_G4_0_half : ballOf G4 0 (1/2) = [0] := by
  simp only [ballOf, distBF, distTable_G4_0, G4_nodes]
  norm_num [alookup, List.filter_cons]

lemma ball_G4_1_half : ballOf G4 1 (1/2) = [1] := by
  simp only [ballOf, distBF, distTable_G4_1, G4_nodes]
  norm_num [alookup, List.filter_cons]

lemma ball_G4_0_one : ballOf G4 0 1 = [0, 2] := by
  simp only [ballOf, distBF, distTable_G4_0, G4_nodes]
  norm_num [alookup, List.filter_cons]

lemma ball_G4_1_one : ballOf G4 1 1 = [1] := by
  simp only [ballOf, distBF, distTable_G4_1, G4_nodes]
  norm_num [alookup, List.filter_cons]

lemma ball_G4_0_two : ballOf G4 0 2 = [0, 2] := by
  simp only [ballOf, distBF, distTable_G4_0, G4_nodes]
  norm_num [alookup, List.filter_cons]

lemma ball_G4_1_two : ballOf G4 1 2 = [1] := by
  simp only [ballOf, distBF, distTable_G4_1, G4_nodes]
  norm_num [alookup, List.filter_cons]

lemma ball_G4_0_big : ballOf G4 0 (9/2) = [0, 1, 2] := by
  simp only [ballOf, distBF, distTable_G4_0, G4_nodes]
  norm_num [alookup, List.filter_cons]

lemma ball_G4_1_big : ballOf G4 1 (15/2) = [0, 1, 2, 3] := by
  simp only [ballOf, distBF, distTable_G4_1, G4_nodes]
  norm_num [alookup, List.filter_cons]

lemma sp_G4_half :
    samplePartition G4 [0, 1] [0, 1] (fun _ => 1/2) = [(0, [0]), (1, [1])] := by
  simp only [samplePartition, clusterOfFold, List.foldl_cons, List.foldl_nil]
  norm_num [ball_G4_0_half, ball_G4_1_half, clusterKeys, ownsSome, clusterSet,
    alookup, G4_nodes, List.filter_cons, List.foldl_cons, List.foldl_nil,
    Option.some_ne_none, Option.some.injEq, ne_eq] <;> simp

lemma sp_G4_one :
    samplePartition G4 [0, 1] [0, 1] (fun _ => 1) = [(0, [0, 2]), (1, [1])] := by
  simp only [samplePartition, clusterOfFold, List.foldl_cons, List.foldl_nil]
  norm_num [ball_G4_0_one, ball_G4_1_one, clusterKeys, ownsSome, clusterSet,
    alookup, G4_nodes, List.filter_cons, List.foldl_cons, List.foldl_nil,
    Option.some_ne_none, Option.some.injEq, ne_eq] <;> simp

lemma sp_G4_two :
    samplePartition G4 [0, 1] [0, 1] (fun _ => 2) = [(0, [0, 2]), (1, [1])] := by
  simp only [samplePartition, clusterOfFold, List.foldl_cons, List.foldl_nil]
  norm_num [ball_G4_0_two, ball_G4_1_two, clusterKeys, ownsSome, clusterSet,
    alookup, G4_nodes, List.filter_cons, List.foldl_cons, List.foldl_nil,
    Option.some_ne_none, Option.some.injEq, ne_eq] <;> simp

lemma sp_G4_big :
    samplePartition G4 [0, 1] [0, 1] (fun v => if v = 0 then 9/2 else 15/2)
      = [(0, [0, 1, 2]), (1, [3, 1])] := by
  simp only [samplePartition, clusterOfFold, List.foldl_cons, List.foldl_nil]
  norm_num [ball_G4_0_big, ball_G4_1_big, clusterKeys, ownsSome, clusterSet,
    alookup, G4_nodes, List.filter_cons, List.foldl_cons, List.foldl_nil,
    Option.some_ne_none, Option.some.injEq, ne_eq] <;> simp

lemma sstep_G4_0 :
    scaleStep G4 [0, 1] rnd4 0 ⟨[(0, some 0), (1, some 1)], [2, 3]⟩
      = ⟨[(0, some 0), (1, some 1)], [2, 3]⟩ := by
  simp only [scaleStep, rnd4_0]
  rw [sp_G4_half]
  norm_num [processCluster, List.foldl_cons, List.foldl_nil]

lemma sstep_G4_1 :
    scaleStep G4 [0, 1] rnd4 1 ⟨[(0, some 0), (1, some 1)], [2, 3]⟩
      = ⟨[(0, some 0), (1, some 1), (2, some 0)], [3]⟩ := by
  simp only [scaleStep, rnd4_1]
  rw [sp_G4_one]
  norm_num [processCluster, processComp, subgraphOn, componentsOf, componentsGo,
    closureOf, closureRounds, closureStep, neighborsList, alookup, insUpd,
    G4_nodes, G4_edges, List.filter_cons, List.foldl_cons, List.foldl_nil,
    List.find?]

lemma sstep_G4_2 :
    scaleStep G4 [0, 1] rnd4 2 ⟨[(0, some 0), (1, some 1), (2, some 0)], [3]⟩
      = ⟨[(0, some 0), (1, some 1), (2, some 0)], [3]⟩ := by
  simp only [scaleStep, rnd4_2]
  rw [sp_G4_two]
  norm_num [processCluster, List.foldl_cons, List.foldl_nil]

lemma sstep_G4_3 :
    scaleStep G4 [0, 1] rnd4 3 ⟨[(0, some 0), (1, some 1), (2, some 0)], [3]⟩
      = ⟨[(0, some 0), (1, some 1), (2, some 0), (3, none)], []⟩ := by
  simp only [scaleStep, rnd4_3]
  rw [sp_G4_big]
  norm_num [processCluster, processComp, subgraphOn, componentsOf, componentsGo,
    closureOf, closureRounds, closureStep, neighborsList, alookup, insUpd,
    G4_nodes, G4_edges, List.filter_cons, List.foldl_cons, List.foldl_nil,
    List.find?]

lemma czeLoop_G4 :
    czeLoop G4 [0, 1] rnd4 [0, 1, 2, 3, 4] (czeInit G4 [0, 1])
      = some ⟨[(0, some 0), (1, some 1), (2, some 0), (3, none)], []⟩ := by
  rw [show czeInit G4 [0, 1] = ⟨[(0, some 0), (1, some 1)], [2, 3]⟩ from by
    norm_num [czeInit, G4_nodes, List.filter_cons]]
  norm_num [czeLoop, sstep_G4_0, sstep_G4_1, sstep_G4_2, sstep_G4_3, List.isEmpty]

/-- C2 (code bug): on the connected graph `G4` whose every component
contains a terminal, a realisable random run of `connected_zero_extension`
terminates and returns an assignment with `f[3] = None`: at scale 8 the
cluster of terminal 1 is {1, 3} (vertex 2 was claimed first by terminal 0),
the residual component {3} has no neighbour among the cluster's deleted
vertices ({1}), so `boundary_term` stays `None` — despite the code comment
"guaranteed to exist" — and the whole component is mapped to `None`, which
is not a terminal.  The second conjunct shows the precondition holds:
vertex 3 is in the component of terminal 0. -/
theorem c2_assignment_can_be_none :
    (connectedZeroExtension G4 [0, 1] rnd4 [0, 1, 2, 3, 4]).map
        (fun p => alookup p.1 3) = some (some none)
    ∧ reach G4 0 3 := by
  constructor
  · unfold connectedZeroExtension
    rw [czeLoop_G4]
    norm_num [czeBuildH, mapOpt, czeLabel, alookup, czeAggregate, capBump,
      sortedPair, czeHEdges, distBF, distTable_G4_0, addNode, G4_edges,
      List.foldl_cons, List.foldl_nil]
  · have h1 : adjacent G4 0 2 := ⟨1, Or.inl (by simp [G4])⟩
    have h2 : adjacent G4 2 3 := ⟨4, Or.inl (by simp [G4])⟩
    exact Relation.ReflTransGen.tail (Relation.ReflTransGen.single h1) h2
/-! ### Claim C4: sample_partition cluster structure -/

/-- Two-vertex graph with one unit edge, both vertices terminals. -/
def Gpair : Graph ℕ := ⟨[0, 1], [(0, 1, 1)]⟩

lemma sp_Gpair_eval :
    samplePartition Gpair [0, 1] [0, 1] (fun _ => 1) = [(0, [0, 1]), (1, [1])] := by
  norm_num [samplePartition, clusterOfFold, ballOf, distBF, distTable, bfRounds,
    relaxAll, relaxEdge, alookup, insUpd, clusterKeys, ownsSome, clusterSet, Gpair,
    List.filter_cons, List.foldl_cons, List.foldl_nil,
    Option.some_ne_none, Option.some.injEq, ne_eq] <;> simp

/-- C4 (counterexample): on the two-vertex unit-weight graph with terminals
{0, 1}, shuffle order (0, 1) and radius 1 (a realisable draw at scale
Δ = 2), terminal 0's ball claims vertex 1 first, yet the forced
`clusters[t].add(t)` loop also puts 1 into its own cluster: vertex 1 lies
in the cluster of 0 AND in the cluster of 1, so the clusters are not
pairwise disjoint. -/
theorem c4_claim_counterexample :
    ¬ (∀ (t1 : ℕ) (C1 : List ℕ) (t2 : ℕ) (C2 : List ℕ),
        (t1, C1) ∈ samplePartition Gpair [0, 1] [0, 1] (fun _ => 1) →
        (t2, C2) ∈ samplePartition Gpair [0, 1] [0, 1] (fun _ => 1) →
        t1 ≠ t2 → ∀ v, v ∈ C1 → v ∉ C2) := by
  intro h
  have h1 : ((0 : ℕ), [0, 1]) ∈ samplePartition Gpair [0, 1] [0, 1] (fun _ => 1) := by
    rw [sp_Gpair_eval]; simp
  have h2 : ((1 : ℕ), ([1] : List ℕ)) ∈ samplePartition Gpair [0, 1] [0, 1] (fun _ => 1) := by
    rw [sp_Gpair_eval]; simp
  exact absurd (show (1 : ℕ) ∈ [1] by simp)
    (h 0 [0, 1] 1 [1] h1 h2 (by decide) 1 (by simp))

lemma mem_clusterSet_iff (G : Graph ℕ) (co : List (ℕ × ℕ)) (t v : ℕ) :
    v ∈ clusterSet G co t ↔
      (v ∈ G.nodes ∧ alookup co v = some t) ∨ v = t := by
  unfold clusterSet
  simp only []
  split
  · constructor
    · intro hv
      exact Or.inl (by simpa [List.mem_filter, decide_eq_true_eq] using hv)
    · intro hv
      rcases hv with ⟨hn, hl⟩ | rfl
      · simp [List.mem_filter, decide_eq_true_eq, hn, hl]
      · assumption
  · constructor
    · intro hv
      rcases List.mem_append.mp hv with hv | hv
      · exact Or.inl (by simpa [List.mem_filter, decide_eq_true_eq] using hv)
      · exact Or.inr (by simpa using hv)
    · intro hv
      rcases hv with ⟨hn, hl⟩ | rfl
      · exact List.mem_append.mpr (Or.inl (by simp [List.mem_filter, decide_eq_true_eq, hn, hl]))
      · exact List.mem_append.mpr (Or.inr (by simp))

lemma mem_clusterKeys_terminals {terminals order : List ℕ} {co : List (ℕ × ℕ)}
    (horder : ∀ t, t ∈ order ↔ t ∈ terminals) {k : ℕ}
    (hk : k ∈ clusterKeys terminals order co) : k ∈ terminals := by
  rcases List.mem_append.mp hk with hk | hk
  · exact (horder k).mp (List.mem_filter.mp hk).1
  · exact (List.mem_filter.mp hk).1

lemma samplePartition_shape {G : Graph ℕ} {terminals order : List ℕ}
    {radii : ℕ → ℚ} {t : ℕ} {C : List ℕ}
    (h : (t, C) ∈ samplePartition G terminals order radii) :
    t ∈ clusterKeys terminals order (clusterOfFold G order radii)
    ∧ C = clusterSet G (clusterOfFold G order radii) t := by
  unfold samplePartition at h
  rcases List.mem_map.mp h with ⟨k, hk, hkeq⟩
  cases hkeq
  exact ⟨hk, rfl⟩

/-- C4 (amended): every terminal's cluster contains the terminal itself,
and the clusters are pairwise disjoint on NON-terminal vertices: no vertex
outside the terminal set belongs to two clusters.  (A terminal claimed by
an earlier terminal's ball additionally appears in that terminal's cluster,
because of the forced `clusters[t].add(t)` — see the counterexample.)
The order hypothesis says the injected shuffle order is a permutation of
the terminal list, as `random.shuffle` guarantees. -/
theorem c4_amended_clusters :
    ∀ (G : Graph ℕ) (terminals order : List ℕ) (radii : ℕ → ℚ),
      (∀ t, t ∈ order ↔ t ∈ terminals) →
      (∀ t ∈ terminals,
        ∃ C, (t, C) ∈ samplePartition G terminals order radii ∧ t ∈ C)
      ∧ (∀ v, v ∉ terminals →
          ∀ (t1 : ℕ) (C1 : List ℕ) (t2 : ℕ) (C2 : List ℕ),
            (t1, C1) ∈ samplePartition G terminals order radii →
            (t2, C2) ∈ samplePartition G terminals order radii →
            v ∈ C1 → v ∈ C2 → t1 = t2) := by
  intro G terminals order radii horder
  constructor
  · intro t ht
    refine ⟨clusterSet G (clusterOfFold G order radii) t, ?_, ?_⟩
    · unfold samplePartition
      refine List.mem_map.mpr ⟨t, ?_, rfl⟩
      unfold clusterKeys
      rcases h : ownsSome (clusterOfFold G order radii) t with _ | _
      · exact List.mem_append.mpr (Or.inr (by
          simp [List.mem_filter, ht, h]))
      · exact List.mem_append.mpr (Or.inl (by
          simp [List.mem_filter, (horder t).mpr ht, h]))
    · exact (mem_clusterSet_iff G _ t t).mpr (Or.inr rfl)
  · intro v hv t1 C1 t2 C2 h1 h2 hv1 hv2
    obtain ⟨hk1, rfl⟩ := samplePartition_shape h1
    obtain ⟨hk2, rfl⟩ := samplePartition_shape h2
    have ht1 : t1 ∈ terminals := mem_clusterKeys_terminals horder hk1
    have ht2 : t2 ∈ terminals := mem_clusterKeys_terminals horder hk2
    rcases (mem_clusterSet_iff G _ t1 v).mp hv1 with ⟨_, hl1⟩ | rfl
    · rcases (mem_clusterSet_iff G _ t2 v).mp hv2 with ⟨_, hl2⟩ | rfl
      · exact Option.some_inj.mp (hl1 ▸ hl2 ▸ rfl)
      · exact absurd ht2 hv
    · exact absurd ht1 hv

/-- Witness for the amended C4 theorem on a concrete partition sample. -/
theorem c4_amended_witness :
    ∃ C, ((0 : ℕ), C) ∈ samplePartition G4 [0, 1] [0, 1] (fun _ => 1) ∧ 0 ∈ C :=
  (c4_amended_clusters G4 [0, 1] [0, 1] (fun _ => 1) (fun t => Iff.rfl)).1 0
    (by simp)
/-! ### Claim C8: invariants of the zero-extension loop -/

lemma alookup_insUpd {α β : Type} [DecidableEq α] (f : List (α × β)) (k : α) (b : β)
    (x : α) : alookup (insUpd f k b) x = if k = x then some b else alookup f x := by
  induction f with
  | nil => simp [insUpd, alookup]
  | cons p ps ih =>
      by_cases h : p.1 = k
      · simp only [insUpd, h, if_true, alookup]
        by_cases h2 : k = x <;> simp [h2]
      · simp only [insUpd, h, if_false, alookup]
        by_cases h2 : p.1 = x
        · have : ¬ k = x := fun hkx => h (hkx ▸ h2)
          simp [h2, this]
        · simp [h2, ih]

lemma alookup_foldl_const {β : Type} (comp : List ℕ) (b : Option β) :
    ∀ (f : List (ℕ × Option β)) (x : ℕ),
      alookup (comp.foldl (fun f v => insUpd f v b) f) x
        = if x ∈ comp then some b else alookup f x := by
  induction comp with
  | nil => simp
  | cons v comp ih =>
      intro f x
      simp only [List.foldl_cons, ih, alookup_insUpd]
      by_cases h1 : x ∈ comp
      · simp [h1]
      · by_cases h2 : v = x <;> simp [h1, h2, List.mem_cons, eq_comm]

lemma closureStep_sub {α : Type} [DecidableEq α] {s : List α} :
    ∀ (es : List (α × α × ℚ)), (∀ e ∈ es, e.1 ∈ s ∧ e.2.1 ∈ s) →
      ∀ (c : List α), (∀ x ∈ c, x ∈ s) → ∀ x ∈ closureStep es c, x ∈ s := by
  intro es
  induction es with
  | nil => intro _ c hc; simpa [closureStep] using hc
  | cons e es ih =>
      intro hes c hc
      simp only [closureStep, List.foldl_cons]
      have he := hes e (by simp)
      have hes' : ∀ e ∈ es, e.1 ∈ s ∧ e.2.1 ∈ s := fun e he => hes e (by simp [he])
      have hnext : ∀ x ∈ (if e.1 ∈ c ∧ e.2.1 ∉ c then c ++ [e.2.1]
          else if e.2.1 ∈ c ∧ e.1 ∉ c then c ++ [e.1] else c), x ∈ s := by
        split
        · intro x hx
          rcases List.mem_append.mp hx with hx | hx
          · exact hc x hx
          · simpa using (by simpa using hx : x = e.2.1) ▸ he.2
        · split
          · intro x hx
            rcases List.mem_append.mp hx with hx | hx
            · exact hc x hx
            · simpa using (by simpa using hx : x = e.1) ▸ he.1
          · exact hc
      exact fun x hx => ih hes' _ hnext x (by simpa [closureStep] using hx)

lemma closureRounds_sub {α : Type} [DecidableEq α] {s : List α}
    {es : List (α × α × ℚ)} (hes : ∀ e ∈ es, e.1 ∈ s ∧ e.2.1 ∈ s) :
    ∀ (driver : List α) (c : List α), (∀ x ∈ c, x ∈ s) →
      ∀ x ∈ closureRounds es driver c, x ∈ s := by
  intro driver
  induction driver with
  | nil => intro c hc; simpa [closureRounds] using hc
  | cons d driver ih =>
      intro c hc
      exact fun x hx => ih _ (closureStep_sub es hes c hc) x
        (by simpa [closureRounds] using hx)

lemma componentsGo_sub (G : Graph ℕ) (s : List ℕ)
    (hes : ∀ e ∈ G.edges, e.1 ∈ s ∧ e.2.1 ∈ s) :
    ∀ (rest : List ℕ), (∀ n ∈ rest, n ∈ s) → ∀ (visited : List ℕ),
      ∀ comp ∈ componentsGo G rest visited, ∀ x ∈ comp, x ∈ s := by
  intro rest
  induction rest with
  | nil => intro _ visited comp hcomp; simp [componentsGo] at hcomp
  | cons n rest ih =>
      intro hn visited comp hcomp
      have hn' : ∀ m ∈ rest, m ∈ s := fun m hm => hn m (by simp [hm])
      simp only [componentsGo] at hcomp
      split at hcomp
      · exact ih hn' visited comp hcomp
      · rcases List.mem_cons.mp hcomp with rfl | hcomp
        · exact closureRounds_sub hes G.nodes [n] (by
            intro x hx
            simpa using (by simpa using hx : x = n) ▸ hn n (by simp))
        · exact ih hn' _ comp hcomp

lemma componentsOf_subgraph_sub (G : Graph ℕ) (s : List ℕ) :
    ∀ comp ∈ componentsOf (subgraphOn G s), ∀ x ∈ comp, x ∈ s := by
  have hes : ∀ e ∈ (subgraphOn G s).edges, e.1 ∈ s ∧ e.2.1 ∈ s := by
    intro e he
    have h2 := (List.mem_filter.mp he).2
    simp only [Bool.and_eq_true, decide_eq_true_eq] at h2
    exact h2
  have hnodes : ∀ n ∈ (subgraphOn G s).nodes, n ∈ s := by
    intro n hn
    simpa using (List.mem_filter.mp hn).2
  exact componentsGo_sub (subgraphOn G s) s hes (subgraphOn G s).nodes hnodes []
/-- Progress relation between two zero-extension states: the unmapped set
only shrinks, assignments of already-mapped vertices are untouched, and any
key of the later assignment was either already present or is now mapped. -/
def czeProg (st st' : CZState) : Prop :=
  (∀ v ∈ st'.unmapped, v ∈ st.unmapped)
  ∧ (∀ x, x ∉ st.unmapped → alookup st'.f x = alookup st.f x)
  ∧ (∀ x, alookup st'.f x ≠ none → alookup st.f x ≠ none ∨ x ∉ st'.unmapped)

lemma czeProg_refl (st : CZState) : czeProg st st :=
  ⟨fun _ h => h, fun _ _ => rfl, fun _ h => Or.inl h⟩

lemma czeProg_trans {a b c : CZState} (h1 : czeProg a b) (h2 : czeProg b c) :
    czeProg a c := by
  refine ⟨fun v hv => h1.1 v (h2.1 v hv), fun x hx => ?_, fun x hx => ?_⟩
  · rw [h2.2.1 x (fun hb => hx (h1.1 x hb)), h1.2.1 x hx]
  · rcases h2.2.2 x hx with hb | hb
    · rcases h1.2.2 x hb with ha | ha
      · exact Or.inl ha
      · exact Or.inr (fun hc => ha (h2.1 x hc))
    · exact Or.inr hb

lemma processComp_unmapped_sub (G : Graph ℕ) (deleted : List ℕ) (st : CZState)
    (comp : List ℕ) :
    ∀ v ∈ (processComp G deleted st comp).unmapped, v ∈ st.unmapped := by
  intro v hv
  exact (List.mem_filter.mp hv).1

lemma processComp_f_frame (G : Graph ℕ) (deleted : List ℕ) (st : CZState)
    (comp : List ℕ) (x : ℕ) (hx : x ∉ comp) :
    alookup (processComp G deleted st comp).f x = alookup st.f x := by
  simp [processComp, alookup_foldl_const, hx]

lemma processComp_removes (G : Graph ℕ) (deleted : List ℕ) (st : CZState)
    (comp : List ℕ) (x : ℕ) (hx : x ∈ comp) :
    x ∉ (processComp G deleted st comp).unmapped := by
  intro hmem
  have := (List.mem_filter.mp hmem).2
  simp only [decide_eq_true_eq] at this
  exact this hx

lemma processComp_keys (G : Graph ℕ) (deleted : List ℕ) (st : CZState)
    (comp : List ℕ) (x : ℕ)
    (hx : alookup (processComp G deleted st comp).f x ≠ none) :
    alookup st.f x ≠ none ∨ x ∈ comp := by
  by_cases hc : x ∈ comp
  · exact Or.inr hc
  · rw [processComp_f_frame G deleted st comp x hc] at hx
    exact Or.inl hx

lemma clusterFold_prog (G : Graph ℕ) (deleted : List ℕ) (st0 : CZState) :
    ∀ (comps : List (List ℕ)) (st : CZState), czeProg st0 st →
      (∀ comp ∈ comps, ∀ x ∈ comp, x ∈ st0.unmapped) →
      czeProg st0 (comps.foldl (processComp G deleted) st) := by
  intro comps
  induction comps with
  | nil => intro st h _; simpa using h
  | cons comp comps ih =>
      intro st h hcomps
      simp only [List.foldl_cons]
      refine ih (processComp G deleted st comp) ?_
        (fun c hc => hcomps c (by simp [hc]))
      have hsub : ∀ x ∈ comp, x ∈ st0.unmapped := hcomps comp (by simp)
      refine ⟨?_, ?_, ?_⟩
      · exact fun v hv => h.1 v (processComp_unmapped_sub G deleted st comp v hv)
      · intro x hx
        have hxc : x ∉ comp := fun hc => hx (hsub x hc)
        rw [processComp_f_frame G deleted st comp x hxc, h.2.1 x hx]
      · intro x hx
        rcases processComp_keys G deleted st comp x hx with hk | hk
        · rcases h.2.2 x hk with ha | ha
          · exact Or.inl ha
          · exact Or.inr (fun hc =>
              ha (processComp_unmapped_sub G deleted st comp x hc))
        · exact Or.inr (processComp_removes G deleted st comp x hk)

lemma processCluster_prog (G : Graph ℕ) (st : CZState) (tc : ℕ × List ℕ) :
    czeProg st (processCluster G st tc) := by
  unfold processCluster
  simp only []
  split
  · split
    · exact czeProg_refl st
    · refine clusterFold_prog G _ st _ st (czeProg_refl st) ?_
      intro comp hcomp x hx
      have := componentsOf_subgraph_sub G
        (tc.2.filter (fun v => decide (v ∈ st.unmapped))) comp hcomp x hx
      have := List.mem_filter.mp this
      simpa using this.2
  · exact czeProg_refl st

lemma clusterListFold_prog (G : Graph ℕ) :
    ∀ (cs : List (ℕ × List ℕ)) (st0 st : CZState), czeProg st0 st →
      czeProg st0 (cs.foldl (processCluster G) st) := by
  intro cs
  induction cs with
  | nil => intro st0 st h; simpa using h
  | cons c cs ih =>
      intro st0 st h
      simp only [List.foldl_cons]
      exact ih st0 (processCluster G st c)
        (czeProg_trans h (processCluster_prog G st c))

lemma scaleStep_prog (G : Graph ℕ) (terminals : List ℕ)
    (rnd : ℕ → List ℕ × (ℕ → ℚ)) (i : ℕ) (st : CZState) :
    czeProg st (scaleStep G terminals rnd i st) :=
  clusterListFold_prog G _ st st (czeProg_refl st)

lemma czeStates_prog (G : Graph ℕ) (terminals : List ℕ)
    (rnd : ℕ → List ℕ × (ℕ → ℚ)) :
    ∀ i j, i ≤ j → czeProg (czeStates G terminals rnd i) (czeStates G terminals rnd j) := by
  intro i j hij
  induction j, hij using Nat.le_induction with
  | base => exact czeProg_refl _
  | succ j hij ih =>
      exact czeProg_trans ih (scaleStep_prog G terminals rnd j _)

/-- Keys of the assignment dict are never unmapped. -/
def czeGoodDom (st : CZState) : Prop :=
  ∀ x, alookup st.f x ≠ none → x ∉ st.unmapped

lemma alookup_map_self_none {x : ℕ} :
    ∀ (ts : List ℕ), x ∉ ts → alookup (ts.map (fun t => (t, some t))) x = none := by
  intro ts
  induction ts with
  | nil => intro _; rfl
  | cons t ts ih =>
      intro hx
      simp only [List.map_cons, alookup]
      rw [if_neg (fun h => hx (by simp [← h]))]
      exact ih (fun h => hx (by simp [h]))

lemma czeGoodDom_init (G : Graph ℕ) (terminals : List ℕ) :
    czeGoodDom (czeInit G terminals) := by
  intro x hx hmem
  have hterm : x ∈ terminals := by
    by_contra hxt
    exact hx (alookup_map_self_none terminals hxt)
  have := (List.mem_filter.mp hmem).2
  simp only [decide_eq_true_eq] at this
  exact this hterm

lemma czeGoodDom_of_prog {a b : CZState} (ha : czeGoodDom a) (h : czeProg a b) :
    czeGoodDom b := by
  intro x hx hmem
  rcases h.2.2 x hx with hk | hk
  · exact ha x hk (h.1 x hmem)
  · exact hk hmem

lemma czeGoodDom_states (G : Graph ℕ) (terminals : List ℕ)
    (rnd : ℕ → List ℕ × (ℕ → ℚ)) (i : ℕ) :
    czeGoodDom (czeStates G terminals rnd i) :=
  czeGoodDom_of_prog (czeGoodDom_init G terminals)
    (czeStates_prog G terminals rnd 0 i (Nat.zero_le i))

/-- C8 (confirmed): across the scale iterations of a zero-extension run, the
unmapped set is non-increasing, and a vertex's assignment, once present in
`f`, is never revised: any later state looks it up to the same value. -/
theorem c8_unmapped_shrinks_assignments_final :
    ∀ (G : Graph ℕ) (terminals : List ℕ) (rnd : ℕ → List ℕ × (ℕ → ℚ)) (i j : ℕ),
      i ≤ j →
      (∀ v, v ∈ (czeStates G terminals rnd j).unmapped →
        v ∈ (czeStates G terminals rnd i).unmapped)
      ∧ (∀ x o, alookup (czeStates G terminals rnd i).f x = some o →
          alookup (czeStates G terminals rnd j).f x = some o) := by
  intro G terminals rnd i j hij
  have hprog := czeStates_prog G terminals rnd i j hij
  refine ⟨hprog.1, ?_⟩
  intro x o hx
  have hdom : x ∉ (czeStates G terminals rnd i).unmapped :=
    czeGoodDom_states G terminals rnd i x (by simp [hx])
  rw [hprog.2.1 x hdom, hx]

/-- Witness for C8 at a concrete run: the assignment of terminal 0 made in
the initial state survives one scale iteration unchanged. -/
theorem c8_witness :
    alookup (czeStates G4 [0, 1] rnd4 1).f 0 = some (some 0) :=
  (c8_unmapped_shrinks_assignments_final G4 [0, 1] rnd4 0 1 (by norm_num)).2
    0 (some 0) (by norm_num [czeStates, czeInit, alookup])
/-! ### Flow_Sparsifier.py -/

/-- Error outcomes of `flow_sparsifier_min_cut`: exhausted fuel (an
artefact of embedding the unbounded Dijkstra loop), a Python `KeyError`
(lookup of an unassigned vertex), or the networkx error raised by
`T.neighbors(u)` on a node absent from the tree. -/
inductive FlowErr where
  | fuelOut
  | keyErr
  | nxErr
deriving DecidableEq

/-- Greedy fold building a spanning forest: keep an edge iff its endpoints
are not yet connected by the kept edges. -/
def greedyForest (nodes : List ℕ) : List (ℕ × ℕ × ℚ) → List (ℕ × ℕ × ℚ) →
    List (ℕ × ℕ × ℚ)
  | acc, [] => acc
  | acc, e :: es =>
      if e.2.1 ∈ closureRounds acc nodes [e.1] then greedyForest nodes acc es
      else greedyForest nodes (acc ++ [e]) es

/-- Embedding of `random_spanning_tree` followed by
`nx.minimum_spanning_tree(..., weight="length")`: the external MST
capability (spec section 6), randomised by the per-edge jitter, is modelled
as a deterministic spanning forest of the same graph (greedy Kruskal scan in
edge order; which spanning forest is returned does not matter for the
properties proved here, only that it spans with edges of the input).  The
tree keeps the original capacities; its node set is the set of edge
endpoints, as `T.add_edge` produces. -/
def spanningForest (G : Graph ℕ) : Graph ℕ :=
  let es := greedyForest G.nodes [] G.edges
  ⟨es.foldl (fun ns e => addNode (addNode ns e.1) e.2.1) [], es⟩

/-- State of the multi-source Dijkstra of `nearest_terminal_map`. -/
structure DijState where
  dist : List (ℕ × ℚ)
  assign : List (ℕ × ℕ)
  pq : List (ℚ × ℕ × ℕ)
deriving DecidableEq

/-- Initial state: every terminal at distance 0, assigned to itself, with
one queue entry `(0.0, t, t)`. -/
def dijInit (terminals : List ℕ) : DijState :=
  terminals.foldl
    (fun st t => ⟨insUpd st.dist t 0, insUpd st.assign t t, st.pq ++ [(0, t, t)]⟩)
    ⟨[], [], []⟩

/-- Strict lexicographic comparison of queue entries `(dist, node, origin)`,
the order `heapq` uses on these tuples. -/
def tripLt (a b : ℚ × ℕ × ℕ) : Bool :=
  decide (a.1 < b.1) ||
    (decide (a.1 = b.1) &&
      (decide (a.2.1 < b.2.1) ||
        (decide (a.2.1 = b.2.1) && decide (a.2.2 < b.2.2))))

/-- Remove the first occurrence of a value from a list. -/
def eraseFirst {α : Type} [DecidableEq α] : List α → α → List α
  | [], _ => []
  | x :: xs, a => if x = a then xs else x :: eraseFirst xs a

/-- Pop the lexicographically smallest entry (the `heapq.heappop`). -/
def popMin (l : List (ℚ × ℕ × ℕ)) :
    Option ((ℚ × ℕ × ℕ) × List (ℚ × ℕ × ℕ)) :=
  match l with
  | [] => none
  | x :: xs =>
      let m := xs.foldl (fun m y => if tripLt y m then y else m) x
      some (m, eraseFirst l m)

/-- Neighbours of `u` in the tree, with capacities, in edge order. -/
def neighborsCap (T : Graph ℕ) (u : ℕ) : List (ℕ × ℚ) :=
  T.edges.foldr (fun e acc =>
    if e.1 = u then (e.2.1, e.2.2) :: acc
    else if e.2.1 = u then (e.1, e.2.2) :: acc
    else acc) []

/-- Relax all tree neighbours of the settled node: `nd = d + 1/capacity`,
update `dist` and push `(nd, v, src)` on strict improvement (a missing
`dist` entry is infinity). -/
def relaxNbrs (src : ℕ) (d : ℚ) (nbrs : List (ℕ × ℚ))
    (dist : List (ℕ × ℚ)) (pq : List (ℚ × ℕ × ℕ)) :
    List (ℕ × ℚ) × List (ℚ × ℕ × ℕ) :=
  nbrs.foldl (fun dp vc =>
    let nd := d + 1 / vc.2
    match alookup dp.1 vc.1 with
    | some dv =>
        if nd < dv then (insUpd dp.1 vc.1 nd, dp.2 ++ [(nd, vc.1, src)]) else dp
    | none => (insUpd dp.1 vc.1 nd, dp.2 ++ [(nd, vc.1, src)])) (dist, pq)

/-- The `while pq:` loop of `nearest_terminal_map`, fuelled by a driver
list: pop the smallest entry, skip it when stale (`d != dist[u]`), else
settle `assign[u] = src` and relax the neighbours; `T.neighbors(u)` on a
node outside the tree raises the networkx error. -/
def dijRun (T : Graph ℕ) : List ℕ → DijState → Except FlowErr (List (ℕ × ℕ))
  | [], st =>
      match popMin st.pq with
      | none => .ok st.assign
      | some _ => .error .fuelOut
  | _ :: fuel, st =>
      match popMin st.pq with
      | none => .ok st.assign
      | some (e, rest) =>
          if alookup st.dist e.2.1 ≠ some e.1 then
            dijRun T fuel ⟨st.dist, st.assign, rest⟩
          else if e.2.1 ∈ T.nodes then
            let rp := relaxNbrs e.2.2 e.1 (neighborsCap T e.2.1) st.dist rest
            dijRun T fuel ⟨rp.1, insUpd st.assign e.2.1 e.2.2, rp.2⟩
          else .error .nxErr

/-- The per-sample aggregation loop over the original edges: look both
endpoints up in `assign` (a missing key is the KeyError), skip intra-cluster
edges, and add `capacity / num_samples` between the two terminals. -/
def flowAggList (assign : List (ℕ × ℕ)) (nsQ : ℚ) :
    List (ℕ × ℕ × ℚ) → Graph ℕ → Except FlowErr (Graph ℕ)
  | [], H => .ok H
  | e :: es, H =>
      match alookup assign e.1, alookup assign e.2.1 with
      | some a, some b =>
          flowAggList assign nsQ es
            (if a = b then H
             else ⟨addNode (addNode H.nodes a) b, bumpEdge H.edges a b (e.2.2 / nsQ)⟩)
      | _, _ => .error .keyErr

/-- One sample: spanning tree, nearest-terminal map, aggregation. -/
def flowSample (G : Graph ℕ) (terminals : List ℕ) (nsQ : ℚ) (dfuel : List ℕ)
    (H : Graph ℕ) : Except FlowErr (Graph ℕ) :=
  match dijRun (spanningForest G) dfuel (dijInit terminals) with
  | .error err => .error err
  | .ok assign => flowAggList assign nsQ G.edges H

/-- The `for _ in range(num_samples)` loop. -/
def flowSamples (G : Graph ℕ) (terminals : List ℕ) (nsQ : ℚ) (dfuel : List ℕ) :
    ℕ → Graph ℕ → Except FlowErr (Graph ℕ)
  | 0, H => .ok H
  | n + 1, H =>
      match flowSample G terminals nsQ dfuel H with
      | .error err => .error err
      | .ok H2 => flowSamples G terminals nsQ dfuel n H2

/-- The default sample count `8 * ceil(log2(max(k, 2)))`. -/
def resolveNumSamples (terminals : List ℕ) : Option ℕ → ℕ
  | some n => n
  | none => Nat.clog 2 (max terminals.length 2) * 8

/-- Embedding of `flow_sparsifier_min_cut` (the jitter randomness is
absorbed into the choice of spanning forest; the Dijkstra loop is fuelled). -/
def flowSparsifier (G : Graph ℕ) (terminals : List ℕ) (numSamples : Option ℕ)
    (dfuel : List ℕ) : Except FlowErr (Graph ℕ) :=
  let ns := resolveNumSamples terminals numSamples
  flowSamples G terminals (ns : ℚ) dfuel ns ⟨terminals, []⟩
/-! ### Basic lemmas for the Dijkstra and forest embeddings -/

lemma mem_eraseFirst {α : Type} [DecidableEq α] {x a : α} :
    ∀ {l : List α}, x ∈ eraseFirst l a → x ∈ l := by
  intro l
  induction l with
  | nil => simp [eraseFirst]
  | cons y ys ih =>
      simp only [eraseFirst]
      split
      · intro h; exact List.mem_cons.mpr (Or.inr h)
      · intro h
        rcases List.mem_cons.mp h with rfl | h
        · exact List.mem_cons.mpr (Or.inl rfl)
        · exact List.mem_cons.mpr (Or.inr (ih h))

lemma mem_eraseFirst_of_ne {α : Type} [DecidableEq α] {x a : α} (hne : x ≠ a) :
    ∀ {l : List α}, x ∈ l → x ∈ eraseFirst l a := by
  intro l
  induction l with
  | nil => simp
  | cons y ys ih =>
      intro h
      simp only [eraseFirst]
      split
      · rcases List.mem_cons.mp h with rfl | h
        · exact absurd (by assumption) hne
        · exact h
      · rcases List.mem_cons.mp h with rfl | h
        · exact List.mem_cons.mpr (Or.inl rfl)
        · exact List.mem_cons.mpr (Or.inr (ih h))

lemma foldl_min_mem : ∀ (xs : List (ℚ × ℕ × ℕ)) (x : ℚ × ℕ × ℕ),
    xs.foldl (fun m y => if tripLt y m then y else m) x ∈ x :: xs := by
  intro xs
  induction xs with
  | nil => simp
  | cons y ys ih =>
      intro x
      simp only [List.foldl_cons]
      rcases h : tripLt y x with _ | _
      · simp only [Bool.false_eq_true, if_false]
        rcases List.mem_cons.mp (ih x) with h2 | h2
        · simp [h2]
        · simp [h2]
      · simp only [if_true]
        rcases List.mem_cons.mp (ih y) with h2 | h2
        · simp [h2]
        · simp [h2]

lemma popMin_some {l : List (ℚ × ℕ × ℕ)} {e : ℚ × ℕ × ℕ}
    {rest : List (ℚ × ℕ × ℕ)} (h : popMin l = some (e, rest)) :
    e ∈ l ∧ rest = eraseFirst l e := by
  match l, h with
  | x :: xs, h =>
      simp only [popMin, Option.some_inj] at h
      cases h
      exact ⟨foldl_min_mem xs x, rfl⟩

lemma popMin_none {l : List (ℚ × ℕ × ℕ)} (h : popMin l = none) : l = [] := by
  cases l with
  | nil => rfl
  | cons x xs => simp [popMin] at h

lemma alookup_insUpd_ne_none {α β : Type} [DecidableEq α]
    {f : List (α × β)} {x : α} (h : alookup f x ≠ none) (k : α) (b : β) :
    alookup (insUpd f k b) x ≠ none := by
  rw [alookup_insUpd]
  split
  · simp
  · exact h

/-- Adjacency induced by an edge list only. -/
def adjE (es : List (ℕ × ℕ × ℚ)) (a b : ℕ) : Prop :=
  ∃ c, (a, b, c) ∈ es ∨ (b, a, c) ∈ es

/-- Reachability over an edge list. -/
def reachE (es : List (ℕ × ℕ × ℚ)) : ℕ → ℕ → Prop :=
  Relation.ReflTransGen (adjE es)

lemma adjacent_iff_adjE (G : Graph ℕ) (a b : ℕ) :
    adjacent G a b ↔ adjE G.edges a b := Iff.rfl

lemma adjE_mono {es es' : List (ℕ × ℕ × ℚ)} (h : ∀ e ∈ es, e ∈ es')
    {a b : ℕ} (hab : adjE es a b) : adjE es' a b := by
  rcases hab with ⟨c, hc | hc⟩
  · exact ⟨c, Or.inl (h _ hc)⟩
  · exact ⟨c, Or.inr (h _ hc)⟩

lemma reachE_mono {es es' : List (ℕ × ℕ × ℚ)} (h : ∀ e ∈ es, e ∈ es')
    {a b : ℕ} (hab : reachE es a b) : reachE es' a b :=
  Relation.ReflTransGen.mono (fun _ _ => adjE_mono h) hab

lemma nbrFold_mem {u : ℕ} : ∀ {es : List (ℕ × ℕ × ℚ)} {vc : ℕ × ℚ},
    vc ∈ es.foldr (fun e acc =>
      if e.1 = u then (e.2.1, e.2.2) :: acc
      else if e.2.1 = u then (e.1, e.2.2) :: acc
      else acc) [] → adjE es u vc.1 := by
  intro es
  induction es with
  | nil => simp
  | cons e es ih =>
      intro vc h
      simp only [List.foldr_cons] at h
      split at h
      · next heq =>
          rcases List.mem_cons.mp h with rfl | h
          · exact ⟨e.2.2, Or.inl (List.mem_cons.mpr (Or.inl (by
              rw [show e = (e.1, e.2.1, e.2.2) from rfl, heq])))⟩
          · exact adjE_mono (fun x hx => List.mem_cons.mpr (Or.inr hx)) (ih h)
      · split at h
        · next heq =>
            rcases List.mem_cons.mp h with rfl | h
            · exact ⟨e.2.2, Or.inr (List.mem_cons.mpr (Or.inl (by
                rw [show e = (e.1, e.2.1, e.2.2) from rfl, heq])))⟩
            · exact adjE_mono (fun x hx => List.mem_cons.mpr (Or.inr hx)) (ih h)
        · exact adjE_mono (fun x hx => List.mem_cons.mpr (Or.inr hx)) (ih h)

lemma neighborsCap_adjE {T : Graph ℕ} {u : ℕ} {vc : ℕ × ℚ}
    (h : vc ∈ neighborsCap T u) : adjE T.edges u vc.1 :=
  nbrFold_mem h

lemma nbrFold_of_mem_left {u v : ℕ} {c : ℚ} :
    ∀ {es : List (ℕ × ℕ × ℚ)}, (u, v, c) ∈ es →
    (v, c) ∈ es.foldr (fun e acc =>
      if e.1 = u then (e.2.1, e.2.2) :: acc
      else if e.2.1 = u then (e.1, e.2.2) :: acc
      else acc) [] := by
  intro es
  induction es with
  | nil => simp
  | cons e es ih =>
      intro h
      simp only [List.foldr_cons]
      rcases List.mem_cons.mp h with heq | h
      · rw [← heq]
        simp
      · split
        · exact List.mem_cons.mpr (Or.inr (ih h))
        · split
          · exact List.mem_cons.mpr (Or.inr (ih h))
          · exact ih h

lemma nbrFold_of_mem_right {u v : ℕ} {c : ℚ} :
    ∀ {es : List (ℕ × ℕ × ℚ)}, (v, u, c) ∈ es →
    (v, c) ∈ es.foldr (fun e acc =>
      if e.1 = u then (e.2.1, e.2.2) :: acc
      else if e.2.1 = u then (e.1, e.2.2) :: acc
      else acc) [] := by
  intro es
  induction es with
  | nil => simp
  | cons e es ih =>
      intro h
      simp only [List.foldr_cons]
      rcases List.mem_cons.mp h with heq | h
      · rw [← heq]
        by_cases hvu : v = u
        · subst hvu
          simp
        · simp [hvu]
      · split
        · exact List.mem_cons.mpr (Or.inr (ih h))
        · split
          · exact List.mem_cons.mpr (Or.inr (ih h))
          · exact ih h

lemma adjE_mem_neighborsCap {T : Graph ℕ} {u v : ℕ} (h : adjE T.edges u v) :
    ∃ c, (v, c) ∈ neighborsCap T u := by
  rcases h with ⟨c, hc | hc⟩
  · exact ⟨c, nbrFold_of_mem_left hc⟩
  · exact ⟨c, nbrFold_of_mem_right hc⟩
lemma closureFold_sound (es : List (ℕ × ℕ × ℚ)) (a : ℕ) :
    ∀ (l : List (ℕ × ℕ × ℚ)), (∀ e ∈ l, e ∈ es) →
    ∀ (c : List ℕ), (∀ x ∈ c, reachE es a x) →
    ∀ x ∈ l.foldl (fun acc e =>
      if e.1 ∈ acc ∧ e.2.1 ∉ acc then acc ++ [e.2.1]
      else if e.2.1 ∈ acc ∧ e.1 ∉ acc then acc ++ [e.1]
      else acc) c, reachE es a x := by
  intro l
  induction l with
  | nil => intro _ c hc; simpa using hc
  | cons e l ih =>
      intro hl c hc
      simp only [List.foldl_cons]
      refine ih (fun e' he' => hl e' (List.mem_cons.mpr (Or.inr he'))) _ ?_
      intro x hx
      split at hx
      · next hcond =>
          rcases List.mem_append.mp hx with hx | hx
          · exact hc x hx
          · have hx' : x = e.2.1 := by simpa using hx
            subst hx'
            exact Relation.ReflTransGen.tail (hc e.1 hcond.1)
              ⟨e.2.2, Or.inl (by
                have := hl e (List.mem_cons.mpr (Or.inl rfl))
                simpa using this)⟩
      · split at hx
        · next hcond =>
            rcases List.mem_append.mp hx with hx | hx
            · exact hc x hx
            · have hx' : x = e.1 := by simpa using hx
              subst hx'
              exact Relation.ReflTransGen.tail (hc e.2.1 hcond.1)
                ⟨e.2.2, Or.inr (by
                  have := hl e (List.mem_cons.mpr (Or.inl rfl))
                  simpa using this)⟩
        · exact hc x hx

lemma closureStep_sound {es : List (ℕ × ℕ × ℚ)} {a : ℕ} {c : List ℕ}
    (hc : ∀ x ∈ c, reachE es a x) : ∀ x ∈ closureStep es c, reachE es a x :=
  closureFold_sound es a es (fun _ h => h) c hc

lemma closureRounds_sound {es : List (ℕ × ℕ × ℚ)} {a : ℕ} :
    ∀ (driver : List ℕ) (c : List ℕ), (∀ x ∈ c, reachE es a x) →
    ∀ x ∈ closureRounds es driver c, reachE es a x := by
  intro driver
  induction driver with
  | nil => intro c hc; simpa [closureRounds] using hc
  | cons d driver ih =>
      intro c hc x hx
      exact ih _ (closureStep_sound hc) x (by simpa [closureRounds] using hx)

lemma closureRounds_reach {es : List (ℕ × ℕ × ℚ)} {a x : ℕ}
    {driver : List ℕ} (h : x ∈ closureRounds es driver [a]) : reachE es a x :=
  closureRounds_sound driver [a]
    (fun y hy => by
      have : y = a := by simpa using hy
      subst this
      exact Relation.ReflTransGen.refl) x h

lemma greedyForest_acc_mono {nodes : List ℕ} {x : ℕ × ℕ × ℚ} :
    ∀ (l acc : List (ℕ × ℕ × ℚ)), x ∈ acc → x ∈ greedyForest nodes acc l := by
  intro l
  induction l with
  | nil => intro acc h; simpa [greedyForest] using h
  | cons e l ih =>
      intro acc h
      simp only [greedyForest]
      split
      · exact ih acc h
      · exact ih _ (List.mem_append.mpr (Or.inl h))

lemma greedyForest_sub {nodes : List ℕ} {x : ℕ × ℕ × ℚ} :
    ∀ (l acc : List (ℕ × ℕ × ℚ)), x ∈ greedyForest nodes acc l →
      x ∈ acc ∨ x ∈ l := by
  intro l
  induction l with
  | nil => intro acc h; exact Or.inl (by simpa [greedyForest] using h)
  | cons e l ih =>
      intro acc h
      simp only [greedyForest] at h
      split at h
      · rcases ih acc h with h | h
        · exact Or.inl h
        · exact Or.inr (List.mem_cons.mpr (Or.inr h))
      · rcases ih _ h with h | h
        · rcases List.mem_append.mp h with h | h
          · exact Or.inl h
          · exact Or.inr (List.mem_cons.mpr (Or.inl (by simpa using h)))
        · exact Or.inr (List.mem_cons.mpr (Or.inr h))

lemma greedyForest_spans {nodes : List ℕ} {u v : ℕ} {cp : ℚ} :
    ∀ (l acc : List (ℕ × ℕ × ℚ)), (u, v, cp) ∈ l →
      reachE (greedyForest nodes acc l) u v := by
  intro l
  induction l with
  | nil => simp
  | cons e l ih =>
      intro acc h
      rcases List.mem_cons.mp h with heq | h
      · simp only [greedyForest]
        split
        · next hin =>
            have hr : reachE acc u v := by
              have h2 := closureRounds_reach hin
              rw [← heq] at h2
              exact h2
            exact reachE_mono (fun x hx => greedyForest_acc_mono l acc hx) hr
        · have hmem : (u, v, cp) ∈ greedyForest nodes (acc ++ [e]) l :=
            greedyForest_acc_mono l _ (List.mem_append.mpr (Or.inr (by simp [heq])))
          exact Relation.ReflTransGen.single ⟨cp, Or.inl hmem⟩
      · simp only [greedyForest]
        split
        · exact ih acc h
        · exact ih _ h

lemma spanningForest_edges (G : Graph ℕ) :
    (spanningForest G).edges = greedyForest G.nodes [] G.edges := rfl

lemma reach_iff_reachE (G : Graph ℕ) (u v : ℕ) :
    reach G u v ↔ reachE G.edges u v := Iff.rfl

lemma adjE_symm {es : List (ℕ × ℕ × ℚ)} {a b : ℕ} (h : adjE es a b) :
    adjE es b a := by
  rcases h with ⟨c, h⟩
  exact ⟨c, h.symm⟩

lemma reachE_symm {es : List (ℕ × ℕ × ℚ)} {a b : ℕ} (h : reachE es a b) :
    reachE es b a := by
  induction h with
  | refl => exact Relation.ReflTransGen.refl
  | tail _ hadj ih => exact Relation.ReflTransGen.head (adjE_symm hadj) ih

lemma spanningForest_spans {G : Graph ℕ} {u v : ℕ} (h : reach G u v) :
    reach (spanningForest G) u v := by
  rw [reach_iff_reachE] at h ⊢
  rw [spanningForest_edges]
  induction h with
  | refl => exact Relation.ReflTransGen.refl
  | tail _ hadj ih =>
      rcases hadj with ⟨c, hc | hc⟩
      · exact Relation.ReflTransGen.trans ih (greedyForest_spans G.edges [] hc)
      · exact Relation.ReflTransGen.trans ih
          (reachE_symm (greedyForest_spans G.edges [] hc))

lemma spanningForest_edges_sub {G : Graph ℕ} {e : ℕ × ℕ × ℚ}
    (h : e ∈ (spanningForest G).edges) : e ∈ G.edges := by
  rw [spanningForest_edges] at h
  rcases greedyForest_sub G.edges [] h with h | h
  · simp at h
  · exact h

lemma reach_spanningForest_to_G {G : Graph ℕ} {u v : ℕ}
    (h : reach (spanningForest G) u v) : reach G u v := by
  rw [reach_iff_reachE] at h ⊢
  exact reachE_mono (fun e he => spanningForest_edges_sub he) h

lemma reach_closed_list (G : Graph ℕ) (s : List ℕ)
    (hcl : ∀ a b, a ∈ s → adjacent G a b → b ∈ s) :
    ∀ {x y : ℕ}, reach G x y → x ∈ s → y ∈ s := by
  intro x y h hx
  induction h with
  | refl => exact hx
  | tail _ hadj ih => exact hcl _ _ ih hadj
/-- One terminal initialisation step of `dijInit`, named for the lemmas. -/
def dijInitStep (st : DijState) (t : ℕ) : DijState :=
  ⟨insUpd st.dist t 0, insUpd st.assign t t, st.pq ++ [(0, t, t)]⟩

lemma dijInit_eq_fold (ts : List ℕ) :
    dijInit ts = ts.foldl dijInitStep ⟨[], [], []⟩ := rfl

lemma dijInitFold_assign : ∀ (ts : List ℕ) (st : DijState) (x : ℕ),
    alookup (ts.foldl dijInitStep st).assign x =
      if x ∈ ts then some x else alookup st.assign x := by
  intro ts
  induction ts with
  | nil => intro st x; simp
  | cons t ts ih =>
      intro st x
      rw [List.foldl_cons, ih]
      by_cases hx : x ∈ ts
      · simp [hx]
      · by_cases ht : t = x
        · subst ht
          simp [hx, dijInitStep, alookup_insUpd]
        · simp [hx, dijInitStep, alookup_insUpd, ht, List.mem_cons, Ne.symm ht]

lemma dijInitFold_dist : ∀ (ts : List ℕ) (st : DijState) (x : ℕ),
    alookup (ts.foldl dijInitStep st).dist x =
      if x ∈ ts then some 0 else alookup st.dist x := by
  intro ts
  induction ts with
  | nil => intro st x; simp
  | cons t ts ih =>
      intro st x
      rw [List.foldl_cons, ih]
      by_cases hx : x ∈ ts
      · simp [hx]
      · by_cases ht : t = x
        · subst ht
          simp [hx, dijInitStep, alookup_insUpd]
        · simp [hx, dijInitStep, alookup_insUpd, ht, List.mem_cons, Ne.symm ht]

lemma dijInitFold_pq : ∀ (ts : List ℕ) (st : DijState) (q : ℚ × ℕ × ℕ),
    q ∈ (ts.foldl dijInitStep st).pq ↔
      q ∈ st.pq ∨ ∃ t ∈ ts, q = ((0 : ℚ), t, t) := by
  intro ts
  induction ts with
  | nil => intro st q; simp
  | cons t ts ih =>
      intro st q
      rw [List.foldl_cons, ih]
      constructor
      · rintro (hin | ⟨u, hu, rfl⟩)
        · rcases List.mem_append.mp hin with h | h
          · exact Or.inl h
          · exact Or.inr ⟨t, List.mem_cons.mpr (Or.inl rfl), by simpa using h⟩
        · exact Or.inr ⟨u, List.mem_cons.mpr (Or.inr hu), rfl⟩
      · rintro (h | ⟨u, hu, rfl⟩)
        · exact Or.inl (List.mem_append.mpr (Or.inl h))
        · rcases List.mem_cons.mp hu with rfl | hu
          · exact Or.inl (List.mem_append.mpr (Or.inr (by simp [dijInitStep])))
          · exact Or.inr ⟨u, hu, rfl⟩

/-- Invariant of the multi-source Dijkstra loop: every assignment and queue
entry is a terminal that reaches its vertex in the tree; every vertex with a
finite distance is assigned or has a queue witness; every assigned vertex
keeps a queue witness at its current distance or has all its neighbours
already given finite distances; terminals stay assigned. -/
def dijInv (T : Graph ℕ) (terminals : List ℕ) (st : DijState) : Prop :=
  (∀ x s, alookup st.assign x = some s → s ∈ terminals ∧ reach T s x) ∧
  (∀ q ∈ st.pq, q.2.2 ∈ terminals ∧ reach T q.2.2 q.2.1) ∧
  (∀ v dd, alookup st.dist v = some dd →
    alookup st.assign v ≠ none ∨ ∃ s, (dd, v, s) ∈ st.pq) ∧
  (∀ u, alookup st.assign u ≠ none →
    (∃ dd s, alookup st.dist u = some dd ∧ (dd, u, s) ∈ st.pq) ∨
    (∀ vc ∈ neighborsCap T u, alookup st.dist vc.1 ≠ none)) ∧
  (∀ t ∈ terminals, alookup st.assign t ≠ none)

lemma dijInit_inv (T : Graph ℕ) (terminals : List ℕ) :
    dijInv T terminals (dijInit terminals) := by
  rw [dijInit_eq_fold]
  refine ⟨?_, ?_, ?_, ?_, ?_⟩
  · intro x s h
    rw [dijInitFold_assign] at h
    split at h
    · next hx =>
        rw [Option.some_inj] at h
        subst h
        exact ⟨hx, Relation.ReflTransGen.refl⟩
    · simp [alookup] at h
  · intro q hq
    rcases (dijInitFold_pq terminals _ q).mp hq with h | ⟨t, ht, rfl⟩
    · simp at h
    · exact ⟨ht, Relation.ReflTransGen.refl⟩
  · intro v dd h
    rw [dijInitFold_dist] at h
    split at h
    · next hv =>
        left
        rw [dijInitFold_assign]
        simp [hv]
    · simp [alookup] at h
  · intro u hu
    rw [dijInitFold_assign] at hu
    split at hu
    · next hx =>
        left
        refine ⟨0, u, ?_, ?_⟩
        · rw [dijInitFold_dist]
          simp [hx]
        · exact (dijInitFold_pq terminals _ _).mpr (Or.inr ⟨u, hx, rfl⟩)
    · simp [alookup] at hu
  · intro t ht
    rw [dijInitFold_assign]
    simp [ht]
lemma relaxNbrs_cons_none {src : ℕ} {d : ℚ} {vc : ℕ × ℚ} {nbrs : List (ℕ × ℚ)}
    {dist : List (ℕ × ℚ)} {pq : List (ℚ × ℕ × ℕ)}
    (h : alookup dist vc.1 = none) :
    relaxNbrs src d (vc :: nbrs) dist pq =
      relaxNbrs src d nbrs (insUpd dist vc.1 (d + 1 / vc.2))
        (pq ++ [(d + 1 / vc.2, vc.1, src)]) := by
  unfold relaxNbrs
  rw [List.foldl_cons]
  simp only [h]

lemma relaxNbrs_cons_lt {src : ℕ} {d : ℚ} {vc : ℕ × ℚ} {nbrs : List (ℕ × ℚ)}
    {dist : List (ℕ × ℚ)} {pq : List (ℚ × ℕ × ℕ)} {dv : ℚ}
    (h : alookup dist vc.1 = some dv) (hlt : d + 1 / vc.2 < dv) :
    relaxNbrs src d (vc :: nbrs) dist pq =
      relaxNbrs src d nbrs (insUpd dist vc.1 (d + 1 / vc.2))
        (pq ++ [(d + 1 / vc.2, vc.1, src)]) := by
  unfold relaxNbrs
  rw [List.foldl_cons]
  simp only [h, hlt, if_true]

lemma relaxNbrs_cons_ge {src : ℕ} {d : ℚ} {vc : ℕ × ℚ} {nbrs : List (ℕ × ℚ)}
    {dist : List (ℕ × ℚ)} {pq : List (ℚ × ℕ × ℕ)} {dv : ℚ}
    (h : alookup dist vc.1 = some dv) (hge : ¬ d + 1 / vc.2 < dv) :
    relaxNbrs src d (vc :: nbrs) dist pq = relaxNbrs src d nbrs dist pq := by
  unfold relaxNbrs
  rw [List.foldl_cons]
  simp only [h, hge, if_false]

lemma relaxNbrs_props (T : Graph ℕ) (terminals : List ℕ)
    (assign' : List (ℕ × ℕ)) (src : ℕ) (d : ℚ) (hsrc : src ∈ terminals) :
    ∀ (nbrs : List (ℕ × ℚ)) (dist : List (ℕ × ℚ)) (pq : List (ℚ × ℕ × ℕ)),
    (∀ vc ∈ nbrs, reach T src vc.1) →
    (∀ q ∈ pq, q.2.2 ∈ terminals ∧ reach T q.2.2 q.2.1) →
    (∀ v dd, alookup dist v = some dd →
        alookup assign' v ≠ none ∨ ∃ s, (dd, v, s) ∈ pq) →
    (∀ q ∈ (relaxNbrs src d nbrs dist pq).2,
        q.2.2 ∈ terminals ∧ reach T q.2.2 q.2.1) ∧
    (∀ v dd, alookup (relaxNbrs src d nbrs dist pq).1 v = some dd →
        alookup assign' v ≠ none ∨
          ∃ s, (dd, v, s) ∈ (relaxNbrs src d nbrs dist pq).2) ∧
    (∀ x, alookup dist x ≠ none →
        alookup (relaxNbrs src d nbrs dist pq).1 x ≠ none) ∧
    (∀ q ∈ pq, q ∈ (relaxNbrs src d nbrs dist pq).2) ∧
    (∀ vc ∈ nbrs, alookup (relaxNbrs src d nbrs dist pq).1 vc.1 ≠ none) ∧
    (∀ w, (∃ dd s, alookup dist w = some dd ∧ (dd, w, s) ∈ pq) →
        ∃ dd s, alookup (relaxNbrs src d nbrs dist pq).1 w = some dd ∧
          (dd, w, s) ∈ (relaxNbrs src d nbrs dist pq).2) := by
  intro nbrs
  induction nbrs with
  | nil =>
      intro dist pq hnb H1 H2
      exact ⟨H1, H2, fun x h => h, fun q h => h, by simp, fun w h => h⟩
  | cons vc nbrs ih =>
      intro dist pq hnb H1 H2
      have hnb' : ∀ vc' ∈ nbrs, reach T src vc'.1 :=
        fun vc' h => hnb vc' (List.mem_cons.mpr (Or.inr h))
      rcases hvd : alookup dist vc.1 with _ | dv
      · rw [relaxNbrs_cons_none hvd]
        have H1' : ∀ q ∈ pq ++ [(d + 1 / vc.2, vc.1, src)],
            q.2.2 ∈ terminals ∧ reach T q.2.2 q.2.1 := by
          intro q hq
          rcases List.mem_append.mp hq with h | h
          · exact H1 q h
          · have hq2 : q = (d + 1 / vc.2, vc.1, src) := by simpa using h
            subst hq2
            exact ⟨hsrc, hnb vc (List.mem_cons.mpr (Or.inl rfl))⟩
        have H2' : ∀ v dd, alookup (insUpd dist vc.1 (d + 1 / vc.2)) v = some dd →
            alookup assign' v ≠ none ∨
              ∃ s, (dd, v, s) ∈ pq ++ [(d + 1 / vc.2, vc.1, src)] := by
          intro v dd h
          rw [alookup_insUpd] at h
          split at h
          · next he =>
              rw [Option.some_inj] at h
              subst h
              subst he
              exact Or.inr ⟨src, List.mem_append.mpr (Or.inr (by simp))⟩
          · exact (H2 v dd h).imp id
              (fun hs => hs.elim (fun s hs =>
                ⟨s, List.mem_append.mpr (Or.inl hs)⟩))
        obtain ⟨C1, C2, C3, C4, C5, C6⟩ := ih _ _ hnb' H1' H2'
        refine ⟨C1, C2, ?_, ?_, ?_, ?_⟩
        · intro x hx
          exact C3 x (alookup_insUpd_ne_none hx _ _)
        · intro q hq
          exact C4 q (List.mem_append.mpr (Or.inl hq))
        · intro vc' hvc'
          rcases List.mem_cons.mp hvc' with rfl | h
          · apply C3
            rw [alookup_insUpd]
            simp
          · exact C5 vc' h
        · rintro w ⟨dd, s, hw, _⟩
          by_cases hwe : w = vc.1
          · subst hwe
            rw [hvd] at hw
            exact absurd hw (by simp)
          · apply C6
            refine ⟨dd, s, ?_, List.mem_append.mpr (Or.inl (by assumption))⟩
            rw [alookup_insUpd, if_neg (fun h2 => hwe h2.symm)]
            exact hw
      · by_cases hlt : d + 1 / vc.2 < dv
        · rw [relaxNbrs_cons_lt hvd hlt]
          have H1' : ∀ q ∈ pq ++ [(d + 1 / vc.2, vc.1, src)],
              q.2.2 ∈ terminals ∧ reach T q.2.2 q.2.1 := by
            intro q hq
            rcases List.mem_append.mp hq with h | h
            · exact H1 q h
            · have hq2 : q = (d + 1 / vc.2, vc.1, src) := by simpa using h
              subst hq2
              exact ⟨hsrc, hnb vc (List.mem_cons.mpr (Or.inl rfl))⟩
          have H2' : ∀ v dd, alookup (insUpd dist vc.1 (d + 1 / vc.2)) v = some dd →
              alookup assign' v ≠ none ∨
                ∃ s, (dd, v, s) ∈ pq ++ [(d + 1 / vc.2, vc.1, src)] := by
            intro v dd h
            rw [alookup_insUpd] at h
            split at h
            · next he =>
                rw [Option.some_inj] at h
                subst h
                subst he
                exact Or.inr ⟨src, List.mem_append.mpr (Or.inr (by simp))⟩
            · exact (H2 v dd h).imp id
                (fun hs => hs.elim (fun s hs =>
                  ⟨s, List.mem_append.mpr (Or.inl hs)⟩))
          obtain ⟨C1, C2, C3, C4, C5, C6⟩ := ih _ _ hnb' H1' H2'
          refine ⟨C1, C2, ?_, ?_, ?_, ?_⟩
          · intro x hx
            exact C3 x (alookup_insUpd_ne_none hx _ _)
          · intro q hq
            exact C4 q (List.mem_append.mpr (Or.inl hq))
          · intro vc' hvc'
            rcases List.mem_cons.mp hvc' with rfl | h
            · apply C3
              rw [alookup_insUpd]
              simp
            · exact C5 vc' h
          · rintro w ⟨dd, s, hw, hmem⟩
            by_cases hwe : w = vc.1
            · subst hwe
              apply C6
              refine ⟨d + 1 / vc.2, src, ?_, List.mem_append.mpr (Or.inr (by simp))⟩
              rw [alookup_insUpd]
              simp
            · apply C6
              refine ⟨dd, s, ?_, List.mem_append.mpr (Or.inl hmem)⟩
              rw [alookup_insUpd, if_neg (fun h2 => hwe h2.symm)]
              exact hw
        · rw [relaxNbrs_cons_ge hvd hlt]
          obtain ⟨C1, C2, C3, C4, C5, C6⟩ := ih _ _ hnb' H1 H2
          refine ⟨C1, C2, C3, C4, ?_, C6⟩
          intro vc' hvc'
          rcases List.mem_cons.mp hvc' with rfl | h
          · exact C3 vc'.1 (by rw [hvd]; simp)
          · exact C5 vc' h
lemma dijInv_stale {T : Graph ℕ} {terminals : List ℕ} {st : DijState}
    {e : ℚ × ℕ × ℕ} (hinv : dijInv T terminals st)
    (hstale : alookup st.dist e.2.1 ≠ some e.1) :
    dijInv T terminals ⟨st.dist, st.assign, eraseFirst st.pq e⟩ := by
  obtain ⟨hA1, hA2, hI, hK, hA3⟩ := hinv
  refine ⟨hA1, ?_, ?_, ?_, hA3⟩
  · intro q hq
    exact hA2 q (mem_eraseFirst hq)
  · intro v dd hv
    rcases hI v dd hv with h | ⟨s, hs⟩
    · exact Or.inl h
    · right
      refine ⟨s, mem_eraseFirst_of_ne ?_ hs⟩
      intro hcontra
      apply hstale
      rw [← hcontra]
      exact hv
  · intro u hu
    rcases hK u hu with ⟨dd, s, hdd, hmem⟩ | hall
    · left
      refine ⟨dd, s, hdd, mem_eraseFirst_of_ne ?_ hmem⟩
      intro hcontra
      apply hstale
      rw [← hcontra]
      exact hdd
    · exact Or.inr hall

lemma dijInv_settle {T : Graph ℕ} {terminals : List ℕ} {st : DijState}
    {e : ℚ × ℕ × ℕ} (hinv : dijInv T terminals st) (hmem : e ∈ st.pq) :
    dijInv T terminals
      ⟨(relaxNbrs e.2.2 e.1 (neighborsCap T e.2.1) st.dist (eraseFirst st.pq e)).1,
       insUpd st.assign e.2.1 e.2.2,
       (relaxNbrs e.2.2 e.1 (neighborsCap T e.2.1) st.dist (eraseFirst st.pq e)).2⟩ := by
  obtain ⟨hA1, hA2, hI, hK, hA3⟩ := hinv
  have hsrc : e.2.2 ∈ terminals := (hA2 e hmem).1
  have hre : reach T e.2.2 e.2.1 := (hA2 e hmem).2
  have hnb : ∀ vc ∈ neighborsCap T e.2.1, reach T e.2.2 vc.1 :=
    fun vc hvc => Relation.ReflTransGen.tail hre (neighborsCap_adjE hvc)
  have H1 : ∀ q ∈ eraseFirst st.pq e, q.2.2 ∈ terminals ∧ reach T q.2.2 q.2.1 :=
    fun q hq => hA2 q (mem_eraseFirst hq)
  have H2 : ∀ v dd, alookup st.dist v = some dd →
      alookup (insUpd st.assign e.2.1 e.2.2) v ≠ none ∨
        ∃ s, (dd, v, s) ∈ eraseFirst st.pq e := by
    intro v dd hv
    rcases hI v dd hv with h | ⟨s, hs⟩
    · exact Or.inl (alookup_insUpd_ne_none h _ _)
    · by_cases hve : (dd, v, s) = e
      · left
        rw [alookup_insUpd]
        have hv2 : e.2.1 = v := by rw [← hve]
        simp [hv2]
      · exact Or.inr ⟨s, mem_eraseFirst_of_ne hve hs⟩
  obtain ⟨C1, C2, C3, C4, C5, C6⟩ :=
    relaxNbrs_props T terminals (insUpd st.assign e.2.1 e.2.2) e.2.2 e.1 hsrc
      (neighborsCap T e.2.1) st.dist (eraseFirst st.pq e) hnb H1 H2
  refine ⟨?_, C1, C2, ?_, ?_⟩
  · intro x s h
    rw [alookup_insUpd] at h
    split at h
    · next he =>
        rw [Option.some_inj] at h
        subst h
        subst he
        exact ⟨hsrc, hre⟩
    · exact hA1 x s h
  · intro u hu
    by_cases hue : u = e.2.1
    · subst hue
      exact Or.inr (fun vc hvc => C5 vc hvc)
    · have hu' : alookup st.assign u ≠ none := by
        rw [alookup_insUpd, if_neg (fun h2 => hue h2.symm)] at hu
        exact hu
      rcases hK u hu' with ⟨dd, s, hdd, hmemq⟩ | hall
      · left
        apply C6
        refine ⟨dd, s, hdd, mem_eraseFirst_of_ne ?_ hmemq⟩
        intro hcontra
        apply hue
        rw [← hcontra]
      · exact Or.inr (fun vc hvc => C3 vc.1 (hall vc hvc))
  · intro t ht
    exact alookup_insUpd_ne_none (hA3 t ht) _ _

lemma dijInv_final {T : Graph ℕ} {terminals : List ℕ} {st : DijState}
    (hinv : dijInv T terminals st) (hpq : st.pq = []) :
    (∀ x s, alookup st.assign x = some s → s ∈ terminals ∧ reach T s x) ∧
    (∀ t ∈ terminals, alookup st.assign t ≠ none) ∧
    (∀ u, alookup st.assign u ≠ none →
      ∀ vc ∈ neighborsCap T u, alookup st.assign vc.1 ≠ none) := by
  obtain ⟨hA1, hA2, hI, hK, hA3⟩ := hinv
  refine ⟨hA1, hA3, ?_⟩
  intro u hu vc hvc
  rcases hK u hu with ⟨dd, s, _, hmemq⟩ | hall
  · rw [hpq] at hmemq
    simp at hmemq
  · have hd := hall vc hvc
    rcases hvd : alookup st.dist vc.1 with _ | dv
    · exact absurd hvd hd
    · rcases hI vc.1 dv hvd with h | ⟨s, hs⟩
      · exact h
      · rw [hpq] at hs
        simp at hs

lemma dijRun_ok_props (T : Graph ℕ) (terminals : List ℕ) :
    ∀ (fuel : List ℕ) (st : DijState) (A : List (ℕ × ℕ)),
    dijInv T terminals st → dijRun T fuel st = .ok A →
    (∀ x s, alookup A x = some s → s ∈ terminals ∧ reach T s x) ∧
    (∀ t ∈ terminals, alookup A t ≠ none) ∧
    (∀ u, alookup A u ≠ none →
      ∀ vc ∈ neighborsCap T u, alookup A vc.1 ≠ none) := by
  intro fuel
  induction fuel with
  | nil =>
      intro st A hinv hrun
      simp only [dijRun] at hrun
      cases hpm : popMin st.pq with
      | none =>
          rw [hpm] at hrun
          rw [Except.ok.injEq] at hrun
          subst hrun
          exact dijInv_final hinv (popMin_none hpm)
      | some pr =>
          rw [hpm] at hrun
          simp at hrun
  | cons f fuel ih =>
      intro st A hinv hrun
      simp only [dijRun] at hrun
      cases hpm : popMin st.pq with
      | none =>
          rw [hpm] at hrun
          rw [Except.ok.injEq] at hrun
          subst hrun
          exact dijInv_final hinv (popMin_none hpm)
      | some pr =>
          obtain ⟨e, rest⟩ := pr
          obtain ⟨hmem, hrest⟩ := popMin_some hpm
          rw [hpm] at hrun
          simp only [] at hrun
          split at hrun
          · next hstale =>
              subst hrest
              exact ih _ A (dijInv_stale hinv hstale) hrun
          · next hstale2 =>
              split at hrun
              · next hnode =>
                  subst hrest
                  exact ih _ A (dijInv_settle hinv hmem) hrun
              · simp at hrun
lemma assign_closed (T : Graph ℕ) (A : List (ℕ × ℕ))
    (hcl : ∀ u, alookup A u ≠ none →
      ∀ vc ∈ neighborsCap T u, alookup A vc.1 ≠ none)
    {x y : ℕ} (h : reach T x y) (hx : alookup A x ≠ none) :
    alookup A y ≠ none := by
  induction h with
  | refl => exact hx
  | tail _ hadj ih =>
      obtain ⟨cp, hcp⟩ := adjE_mem_neighborsCap hadj
      exact hcl _ ih _ hcp

lemma flowAggList_ok (assign : List (ℕ × ℕ)) (nsQ : ℚ) :
    ∀ (es : List (ℕ × ℕ × ℚ)) (H : Graph ℕ),
    (∀ e ∈ es, alookup assign e.1 ≠ none ∧ alookup assign e.2.1 ≠ none) →
    ∃ H2, flowAggList assign nsQ es H = .ok H2 := by
  intro es
  induction es with
  | nil => intro H _; exact ⟨H, rfl⟩
  | cons e es ih =>
      intro H hall
      obtain ⟨h1, h2⟩ := hall e (List.mem_cons.mpr (Or.inl rfl))
      rcases ha : alookup assign e.1 with _ | a
      · exact absurd ha h1
      · rcases hb : alookup assign e.2.1 with _ | b
        · exact absurd hb h2
        · simp only [flowAggList, ha, hb]
          exact ih _ (fun e' he' => hall e' (List.mem_cons.mpr (Or.inr he')))

lemma flowAggList_err (assign : List (ℕ × ℕ)) (nsQ : ℚ) :
    ∀ (es : List (ℕ × ℕ × ℚ)),
    (∃ e ∈ es, alookup assign e.1 = none ∨ alookup assign e.2.1 = none) →
    ∀ (H : Graph ℕ), flowAggList assign nsQ es H = .error .keyErr := by
  intro es
  induction es with
  | nil => rintro ⟨e, he, _⟩; simp at he
  | cons e0 es ih =>
      rintro ⟨e, he, hor⟩ H
      rcases ha : alookup assign e0.1 with _ | a
      · rcases hb : alookup assign e0.2.1 with _ | b <;>
          simp [flowAggList, ha, hb]
      · rcases hb : alookup assign e0.2.1 with _ | b
        · simp [flowAggList, ha, hb]
        · simp only [flowAggList, ha, hb]
          rcases List.mem_cons.mp he with rfl | he2
          · rcases hor with h | h
            · rw [ha] at h; exact absurd h (by simp)
            · rw [hb] at h; exact absurd h (by simp)
          · exact ih ⟨e, he2, hor⟩ _

lemma flowSamples_err (G : Graph ℕ) (terminals : List ℕ) (nsQ : ℚ)
    (dfuel : List ℕ)
    (herr : ∀ H, flowSample G terminals nsQ dfuel H = .error FlowErr.keyErr) :
    ∀ (n : ℕ) (H : Graph ℕ), 0 < n →
      flowSamples G terminals nsQ dfuel n H = .error FlowErr.keyErr := by
  intro n H hn
  cases n with
  | zero => exact absurd hn (by simp)
  | succ m => simp [flowSamples, herr H]

lemma flowSamples_ok (G : Graph ℕ) (terminals : List ℕ) (nsQ : ℚ)
    (dfuel : List ℕ)
    (hok : ∀ H, ∃ H2, flowSample G terminals nsQ dfuel H = .ok H2) :
    ∀ (n : ℕ) (H : Graph ℕ), ∃ Hf, flowSamples G terminals nsQ dfuel n H = .ok Hf := by
  intro n
  induction n with
  | zero => intro H; exact ⟨H, rfl⟩
  | succ m ih =>
      intro H
      obtain ⟨H2, h2⟩ := hok H
      simp only [flowSamples, h2]
      exact ih H2
/-! ### Concrete inputs for the nearest-terminal totality claim (C10) -/

/-- Two disjoint components {0,1} and {2,3}; with terminal set {0} the
component {2,3} contains no terminal. -/
def splitG : Graph ℕ := ⟨[0, 1, 2, 3], [(0, 1, 1), (2, 3, 1)]⟩

lemma forest_splitG :
    spanningForest splitG = ⟨[0, 1, 2, 3], [(0, 1, 1), (2, 3, 1)]⟩ := by
  norm_num [spanningForest, greedyForest, closureRounds, closureStep, addNode,
    splitG, List.foldl_cons, List.foldl_nil]

lemma dijInit_zero : dijInit [0] = ⟨[(0, 0)], [(0, 0)], [(0, 0, 0)]⟩ := by
  norm_num [dijInit, insUpd, List.foldl_cons, List.foldl_nil]

lemma dij_splitG_eval :
    dijRun (spanningForest splitG) [0, 1, 2, 3, 4, 5] (dijInit [0])
      = .ok [(0, 0), (1, 0)] := by
  rw [forest_splitG, dijInit_zero]
  norm_num [dijRun, popMin, tripLt, eraseFirst, relaxNbrs, neighborsCap,
    alookup, insUpd, List.foldl_cons, List.foldl_nil, List.foldr_cons,
    List.foldr_nil]

lemma forest_singleEdge :
    spanningForest singleEdgeG = ⟨[0, 1], [(0, 1, 1)]⟩ := by
  norm_num [spanningForest, greedyForest, closureRounds, closureStep, addNode,
    singleEdgeG, List.foldl_cons, List.foldl_nil]

lemma dijInit_zeroOne :
    dijInit [0, 1] = ⟨[(0, 0), (1, 0)], [(0, 0), (1, 1)], [(0, 0, 0), (0, 1, 1)]⟩ := by
  norm_num [dijInit, insUpd, List.foldl_cons, List.foldl_nil]

lemma dij_singleEdge_eval :
    dijRun (spanningForest singleEdgeG) [0, 1, 2, 3, 4, 5] (dijInit [0, 1])
      = .ok [(0, 0), (1, 1)] := by
  rw [forest_singleEdge, dijInit_zeroOne]
  norm_num [dijRun, popMin, tripLt, eraseFirst, relaxNbrs, neighborsCap,
    alookup, insUpd, List.foldl_cons, List.foldl_nil, List.foldr_cons,
    List.foldr_nil]

/-- C10: the nearest-terminal map of `flow_sparsifier_min_cut` is total only
under the every-component-has-a-terminal precondition.  Part one: if some
edge endpoint lies in a connected component without any terminal (and the
Dijkstra loop completes), the aggregation step looks up an unassigned vertex
and the function fails with the key error instead of returning a sparsifier.
Part two: when every edge endpoint is reachable from some terminal, every
aggregation lookup succeeds and the function returns a sparsifier. -/
theorem c10_nearest_terminal_totality :
    (∀ (G : Graph ℕ) (terminals : List ℕ) (numSamples : Option ℕ)
        (dfuel : List ℕ) (assign : List (ℕ × ℕ)) (u v : ℕ) (cp : ℚ),
      dijRun (spanningForest G) dfuel (dijInit terminals) = .ok assign →
      (u, v, cp) ∈ G.edges →
      (∀ t ∈ terminals, ¬ reach G t u) →
      0 < resolveNumSamples terminals numSamples →
      flowSparsifier G terminals numSamples dfuel = .error FlowErr.keyErr) ∧
    (∀ (G : Graph ℕ) (terminals : List ℕ) (numSamples : Option ℕ)
        (dfuel : List ℕ) (assign : List (ℕ × ℕ)),
      dijRun (spanningForest G) dfuel (dijInit terminals) = .ok assign →
      (∀ u v cp, (u, v, cp) ∈ G.edges → ∃ t ∈ terminals, reach G t u) →
      (∀ e ∈ G.edges, alookup assign e.1 ≠ none ∧ alookup assign e.2.1 ≠ none) ∧
      ∃ H, flowSparsifier G terminals numSamples dfuel = .ok H) := by
  constructor
  · intro G terminals numSamples dfuel assign u v cp hok hedge hterm hns
    obtain ⟨P1, _, _⟩ :=
      dijRun_ok_props (spanningForest G) terminals dfuel (dijInit terminals)
        assign (dijInit_inv _ _) hok
    have hu : alookup assign u = none := by
      rcases ha : alookup assign u with _ | s
      · rfl
      · obtain ⟨hs, hre⟩ := P1 u s ha
        exact absurd (reach_spanningForest_to_G hre) (hterm s hs)
    have herr : ∀ H, flowSample G terminals
        ((resolveNumSamples terminals numSamples : ℕ) : ℚ) dfuel H
          = .error FlowErr.keyErr := by
      intro H
      simp only [flowSample, hok]
      exact flowAggList_err assign _ G.edges ⟨(u, v, cp), hedge, Or.inl hu⟩ H
    simp only [flowSparsifier]
    exact flowSamples_err G terminals _ dfuel herr _ _ hns
  · intro G terminals numSamples dfuel assign hok hpre
    obtain ⟨P1, P2, P3⟩ :=
      dijRun_ok_props (spanningForest G) terminals dfuel (dijInit terminals)
        assign (dijInit_inv _ _) hok
    have hass : ∀ e ∈ G.edges,
        alookup assign e.1 ≠ none ∧ alookup assign e.2.1 ≠ none := by
      intro e he
      obtain ⟨t, ht, hre⟩ := hpre e.1 e.2.1 e.2.2 he
      have h1 : alookup assign e.1 ≠ none :=
        assign_closed (spanningForest G) assign P3
          (spanningForest_spans hre) (P2 t ht)
      have hrev : reach G t e.2.1 :=
        Relation.ReflTransGen.tail hre ⟨e.2.2, Or.inl he⟩
      have h2 : alookup assign e.2.1 ≠ none :=
        assign_closed (spanningForest G) assign P3
          (spanningForest_spans hrev) (P2 t ht)
      exact ⟨h1, h2⟩
    refine ⟨hass, ?_⟩
    have hsok : ∀ H, ∃ H2, flowSample G terminals
        ((resolveNumSamples terminals numSamples : ℕ) : ℚ) dfuel H = .ok H2 := by
      intro H
      simp only [flowSample, hok]
      exact flowAggList_ok assign _ G.edges H hass
    obtain ⟨Hf, hf⟩ := flowSamples_ok G terminals _ dfuel hsok
      (resolveNumSamples terminals numSamples) ⟨terminals, []⟩
    exact ⟨Hf, by simp only [flowSparsifier]; exact hf⟩

/-- Witness for the C10 theorem: on the two-component graph with terminal 0
the call fails with the key error; on the single-edge graph with both
endpoints terminal it returns a sparsifier. -/
theorem c10_witness :
    flowSparsifier splitG [0] (some 1) [0, 1, 2, 3, 4, 5]
        = .error FlowErr.keyErr ∧
    ∃ H, flowSparsifier singleEdgeG [0, 1] (some 1) [0, 1, 2, 3, 4, 5] = .ok H := by
  constructor
  · apply c10_nearest_terminal_totality.1 splitG [0] (some 1) [0, 1, 2, 3, 4, 5]
      [(0, 0), (1, 0)] 2 3 1 dij_splitG_eval (by simp [splitG])
    · intro t ht hre
      have ht0 : t = 0 := by simpa using ht
      subst ht0
      have hcl : ∀ a b, a ∈ [0, 1] → adjacent splitG a b → b ∈ [0, 1] := by
        rintro a b ha ⟨c, hc | hc⟩ <;> simp only [splitG] at hc <;>
          simp only [List.mem_cons, List.not_mem_nil, or_false,
            Prod.mk.injEq] at hc <;>
          rcases hc with ⟨rfl, rfl, rfl⟩ | ⟨rfl, rfl, rfl⟩ <;> simp_all
      have h2 : (2 : ℕ) ∈ [0, 1] := reach_closed_list splitG [0, 1] hcl hre (by simp)
      simp at h2
    · simp [resolveNumSamples]
  · exact (c10_nearest_terminal_totality.2 singleEdgeG [0, 1] (some 1)
      [0, 1, 2, 3, 4, 5] [(0, 0), (1, 1)] dij_singleEdge_eval
      (by
        intro u v cp h
        simp only [singleEdgeG, List.mem_cons, List.not_mem_nil, or_false,
          Prod.mk.injEq] at h
        obtain ⟨rfl, rfl, rfl⟩ := h
        exact ⟨0, by simp, Relation.ReflTransGen.refl⟩)).2
/-! ### Support lemmas for sparsifier validity (claim C7) -/

lemma alookup_mem {α β : Type} [DecidableEq α] :
    ∀ {t : List (α × β)} {k : α} {v : β}, alookup t k = some v → (k, v) ∈ t := by
  intro t
  induction t with
  | nil => intro k v h; simp [alookup] at h
  | cons p ps ih =>
      intro k v h
      simp only [alookup] at h
      split at h
      · next he =>
          rw [Option.some_inj] at h
          exact List.mem_cons.mpr (Or.inl (by rw [← he, ← h]))
      · exact List.mem_cons.mpr (Or.inr (ih h))

lemma insUpd_val_prop {α β : Type} [DecidableEq α] {Q : β → Prop} :
    ∀ {t : List (α × β)} {k : α} {w : β}, (∀ p ∈ t, Q p.2) → Q w →
      ∀ p ∈ insUpd t k w, Q p.2 := by
  intro t
  induction t with
  | nil =>
      intro k w _ hw p hp
      have : p = (k, w) := by simpa [insUpd] using hp
      subst this
      exact hw
  | cons q qs ih =>
      intro k w ht hw p hp
      simp only [insUpd] at hp
      split at hp
      · rcases List.mem_cons.mp hp with rfl | hp
        · exact hw
        · exact ht p (List.mem_cons.mpr (Or.inr hp))
      · rcases List.mem_cons.mp hp with rfl | hp
        · exact ht p (List.mem_cons.mpr (Or.inl rfl))
        · exact ih (fun q hq => ht q (List.mem_cons.mpr (Or.inr hq))) hw p hp

lemma addNode_of_mem {α : Type} [DecidableEq α] {ns : List α} {a : α}
    (h : a ∈ ns) : addNode ns a = ns := by
  simp [addNode, h]

lemma mapOpt_mem {α β : Type} {g : α → Option β} :
    ∀ {xs : List α} {ys : List β}, mapOpt g xs = some ys →
      ∀ y ∈ ys, ∃ x ∈ xs, g x = some y := by
  intro xs
  induction xs with
  | nil =>
      intro ys h y hy
      simp only [mapOpt, Option.some_inj] at h
      subst h
      simp at hy
  | cons x xs ih =>
      intro ys h y hy
      simp only [mapOpt] at h
      rcases hx : g x with _ | b
      · rw [hx] at h; simp at h
      · rcases hrest : mapOpt g xs with _ | bs
        · rw [hx, hrest] at h; simp at h
        · rw [hx, hrest] at h
          rw [Option.some_inj] at h
          subst h
          rcases List.mem_cons.mp hy with rfl | hy
          · exact ⟨x, List.mem_cons.mpr (Or.inl rfl), hx⟩
          · obtain ⟨x', hx', hgx'⟩ := ih hrest y hy
            exact ⟨x', List.mem_cons.mpr (Or.inr hx'), hgx'⟩

lemma alookup_map_self_some {x : ℕ} {o : Option ℕ} :
    ∀ {ts : List ℕ}, alookup (ts.map (fun t => (t, some t))) x = some o →
      o = some x ∧ x ∈ ts := by
  intro ts
  induction ts with
  | nil => intro h; simp [alookup] at h
  | cons t ts ih =>
      intro h
      simp only [List.map_cons, alookup] at h
      split at h
      · next he =>
          rw [Option.some_inj] at h
          subst h
          subst he
          exact ⟨rfl, by simp⟩
      · obtain ⟨h1, h2⟩ := ih h
        exact ⟨h1, List.mem_cons.mpr (Or.inr h2)⟩

lemma sortedPair_props {terminals : List ℕ} {t1 t2 : ℕ}
    (h1 : t1 ∈ terminals) (h2 : t2 ∈ terminals) (hne : t1 ≠ t2) :
    (sortedPair t1 t2).1 ∈ terminals ∧ (sortedPair t1 t2).2 ∈ terminals ∧
      (sortedPair t1 t2).1 ≠ (sortedPair t1 t2).2 := by
  unfold sortedPair
  split
  · exact ⟨h1, h2, hne⟩
  · exact ⟨h2, h1, Ne.symm hne⟩

lemma capBump_props {P : ℕ × ℕ → Prop} :
    ∀ {m : List ((ℕ × ℕ) × ℚ)} {k : ℕ × ℕ} {w : ℚ},
    (∀ p ∈ m, P p.1 ∧ 0 ≤ p.2) → P k → 0 ≤ w →
    ∀ p ∈ capBump m k w, P p.1 ∧ 0 ≤ p.2 := by
  intro m
  induction m with
  | nil =>
      intro k w _ hk hw p hp
      have : p = (k, w) := by simpa [capBump] using hp
      subst this
      exact ⟨hk, hw⟩
  | cons q qs ih =>
      intro k w hm hk hw p hp
      simp only [capBump] at hp
      split at hp
      · rcases List.mem_cons.mp hp with rfl | hp
        · obtain ⟨hq1, hq2⟩ := hm q (List.mem_cons.mpr (Or.inl rfl))
          exact ⟨hq1, add_nonneg hq2 hw⟩
        · exact hm p (List.mem_cons.mpr (Or.inr hp))
      · rcases List.mem_cons.mp hp with rfl | hp
        · exact hm p (List.mem_cons.mpr (Or.inl rfl))
        · exact ih (fun q hq => hm q (List.mem_cons.mpr (Or.inr hq))) hk hw p hp

lemma bumpEdge_props {terminals : List ℕ} :
    ∀ {es : List (ℕ × ℕ × ℚ)} {a b : ℕ} {w : ℚ},
    (∀ e ∈ es, e.1 ≠ e.2.1 ∧ e.1 ∈ terminals ∧ e.2.1 ∈ terminals ∧ 0 ≤ e.2.2) →
    a ≠ b → a ∈ terminals → b ∈ terminals → 0 ≤ w →
    ∀ e ∈ bumpEdge es a b w,
      e.1 ≠ e.2.1 ∧ e.1 ∈ terminals ∧ e.2.1 ∈ terminals ∧ 0 ≤ e.2.2 := by
  intro es
  induction es with
  | nil =>
      intro a b w _ hab ha hb hw e he
      have : e = (a, b, w) := by simpa [bumpEdge] using he
      subst this
      exact ⟨hab, ha, hb, hw⟩
  | cons e0 es ih =>
      intro a b w hes hab ha hb hw e he
      simp only [bumpEdge] at he
      split at he
      · rcases List.mem_cons.mp he with rfl | he
        · obtain ⟨h1, h2, h3, h4⟩ := hes e0 (List.mem_cons.mpr (Or.inl rfl))
          exact ⟨h1, h2, h3, add_nonneg h4 hw⟩
        · exact hes e (List.mem_cons.mpr (Or.inr he))
      · rcases List.mem_cons.mp he with rfl | he
        · exact hes e (List.mem_cons.mpr (Or.inl rfl))
        · exact ih (fun q hq => hes q (List.mem_cons.mpr (Or.inr hq)))
            hab ha hb hw e he

lemma nodesFold_fixed {ns : List ℕ} :
    ∀ {l : List (ℕ × ℕ × ℚ × ℚ)}, (∀ e ∈ l, e.1 ∈ ns ∧ e.2.1 ∈ ns) →
      l.foldl (fun ns e => addNode (addNode ns e.1) e.2.1) ns = ns := by
  intro l
  induction l with
  | nil => intro _; rfl
  | cons e l ih =>
      intro hl
      obtain ⟨h1, h2⟩ := hl e (List.mem_cons.mpr (Or.inl rfl))
      rw [List.foldl_cons, addNode_of_mem h1, addNode_of_mem h2]
      exact ih (fun e' he' => hl e' (List.mem_cons.mpr (Or.inr he')))

lemma nodesFoldQ_fixed {ns : List ℕ} :
    ∀ {l : List (ℕ × ℕ × ℚ)}, (∀ e ∈ l, e.1 ∈ ns ∧ e.2.1 ∈ ns) →
      l.foldl (fun ns e => addNode (addNode ns e.1) e.2.1) ns = ns := by
  intro l
  induction l with
  | nil => intro _; rfl
  | cons e l ih =>
      intro hl
      obtain ⟨h1, h2⟩ := hl e (List.mem_cons.mpr (Or.inl rfl))
      rw [List.foldl_cons, addNode_of_mem h1, addNode_of_mem h2]
      exact ih (fun e' he' => hl e' (List.mem_cons.mpr (Or.inr he')))

lemma relaxDirAux_nonneg {w : ℚ} (hw : 0 ≤ w) (t : List (ℕ × ℚ))
    (ht : ∀ p ∈ t, 0 ≤ p.2) (b : ℕ) (o1 o2 : Option ℚ)
    (ho1 : ∀ x, o1 = some x → 0 ≤ x) :
    ∀ p ∈ ((match o1 with
           | none => t
           | some du =>
               match o2 with
               | none => insUpd t b (du + w)
               | some dv => if du + w < dv then insUpd t b (du + w) else t :
        List (ℕ × ℚ))),
      0 ≤ p.2 := by
  rcases o1 with _ | du
  · exact ht
  · have hdu : 0 ≤ du := ho1 du rfl
    rcases o2 with _ | dv
    · exact insUpd_val_prop ht (add_nonneg hdu hw)
    · show ∀ p ∈ (if du + w < dv then insUpd t b (du + w) else t), 0 ≤ p.2
      split
      · exact insUpd_val_prop ht (add_nonneg hdu hw)
      · exact ht

lemma relaxDir_nonneg {w : ℚ} (hw : 0 ≤ w) (t : List (ℕ × ℚ))
    (ht : ∀ p ∈ t, 0 ≤ p.2) (a b : ℕ) :
    ∀ p ∈ (match alookup t a with
           | none => t
           | some du =>
               match alookup t b with
               | none => insUpd t b (du + w)
               | some dv => if du + w < dv then insUpd t b (du + w) else t),
      0 ≤ p.2 :=
  relaxDirAux_nonneg hw t ht b (alookup t a) (alookup t b)
    (fun x hx => ht _ (alookup_mem hx))

lemma relaxEdge_nonneg {t : List (ℕ × ℚ)} {e : ℕ × ℕ × ℚ}
    (ht : ∀ p ∈ t, 0 ≤ p.2) (he : 0 ≤ e.2.2) :
    ∀ p ∈ relaxEdge t e, 0 ≤ p.2 :=
  relaxDir_nonneg he _ (relaxDir_nonneg he t ht e.1 e.2.1) e.2.1 e.1


lemma relaxAll_nonneg :
    ∀ (l : List (ℕ × ℕ × ℚ)) (t : List (ℕ × ℚ)),
    (∀ e ∈ l, 0 ≤ e.2.2) → (∀ p ∈ t, 0 ≤ p.2) →
    ∀ p ∈ l.foldl relaxEdge t, 0 ≤ p.2 := by
  intro l
  induction l with
  | nil => intro t _ ht; simpa using ht
  | cons e l ih =>
      intro t hl ht
      rw [List.foldl_cons]
      exact ih _ (fun e' he' => hl e' (List.mem_cons.mpr (Or.inr he')))
        (relaxEdge_nonneg ht (hl e (List.mem_cons.mpr (Or.inl rfl))))

lemma bfRounds_nonneg {es : List (ℕ × ℕ × ℚ)} (hes : ∀ e ∈ es, 0 ≤ e.2.2) :
    ∀ (driver : List ℕ) (t : List (ℕ × ℚ)), (∀ p ∈ t, 0 ≤ p.2) →
    ∀ p ∈ bfRounds es driver t, 0 ≤ p.2 := by
  intro driver
  induction driver with
  | nil => intro t ht; simpa [bfRounds] using ht
  | cons d driver ih =>
      intro t ht p hp
      exact ih _ (relaxAll_nonneg es t hes ht) p (by simpa [bfRounds] using hp)

lemma distBF_nonneg {G : Graph ℕ} (hG : ∀ e ∈ G.edges, 0 ≤ e.2.2)
    {s v : ℕ} {d : ℚ} (h : distBF G s v = some d) : 0 ≤ d := by
  unfold distBF distTable at h
  exact bfRounds_nonneg hG G.nodes [(s, 0)] (by simp) _ (alookup_mem h)
/-- All assignment values present in `f` are terminals (or `None`). -/
def czeValT (terminals : List ℕ) (f : List (ℕ × Option ℕ)) : Prop :=
  ∀ x o, alookup f x = some o → ∀ t, o = some t → t ∈ terminals

lemma czeValT_insUpd {terminals : List ℕ} {f : List (ℕ × Option ℕ)}
    {k : ℕ} {b : Option ℕ} (hf : czeValT terminals f)
    (hb : ∀ t, b = some t → t ∈ terminals) :
    czeValT terminals (insUpd f k b) := by
  intro x o h t hto
  rw [alookup_insUpd] at h
  split at h
  · rw [Option.some_inj] at h
    subst h
    exact hb t hto
  · exact hf x o h t hto

lemma czeValT_init (G : Graph ℕ) (terminals : List ℕ) :
    czeValT terminals (czeInit G terminals).f := by
  intro x o h t hto
  obtain ⟨h1, h2⟩ := alookup_map_self_some h
  subst h1
  rw [Option.some_inj] at hto
  subst hto
  exact h2

lemma czeValT_foldl_insUpd {terminals : List ℕ} {b : Option ℕ}
    (hb : ∀ t, b = some t → t ∈ terminals) :
    ∀ (comp : List ℕ) (f : List (ℕ × Option ℕ)), czeValT terminals f →
      czeValT terminals (comp.foldl (fun f v => insUpd f v b) f) := by
  intro comp
  induction comp with
  | nil => intro f hf; exact hf
  | cons v comp ih =>
      intro f hf
      rw [List.foldl_cons]
      exact ih _ (czeValT_insUpd hf hb)

lemma czeValT_processComp {terminals : List ℕ} {G : Graph ℕ}
    {deleted : List ℕ} {st : CZState} {comp : List ℕ}
    (hf : czeValT terminals st.f) :
    czeValT terminals (processComp G deleted st comp).f := by
  unfold processComp
  simp only []
  apply czeValT_foldl_insUpd ?_ comp st.f hf
  intro t ht
  rcases h1 : comp.find?
      (fun v => (neighborsList G v).any (fun u => decide (u ∈ deleted))) with _ | v
  · rw [h1] at ht
    exact Option.noConfusion ht
  · rw [h1] at ht
    simp only [] at ht
    rcases h2 : (neighborsList G v).find? (fun u => decide (u ∈ deleted)) with _ | u
    · rw [h2] at ht
      exact Option.noConfusion ht
    · rw [h2] at ht
      simp only [] at ht
      rcases hu : alookup st.f u with _ | w
      · rw [hu] at ht
        exact Option.noConfusion ht
      · rw [hu] at ht
        simp only [Option.getD_some] at ht
        exact hf u w hu t ht

lemma czeValT_processCluster {terminals : List ℕ} {G : Graph ℕ}
    {st : CZState} {tc : ℕ × List ℕ}
    (hf : czeValT terminals st.f) :
    czeValT terminals (processCluster G st tc).f := by
  unfold processCluster
  simp only []
  split
  · split
    · exact hf
    · have hfold : ∀ (comps : List (List ℕ)) (st' : CZState),
          czeValT terminals st'.f →
          czeValT terminals ((comps.foldl
            (processComp G (tc.2.filter (fun v => decide (v ∉ st.unmapped)))) st').f) := by
        intro comps
        induction comps with
        | nil => intro st' h; exact h
        | cons c comps ih =>
            intro st' h
            rw [List.foldl_cons]
            exact ih _ (czeValT_processComp h)
      exact hfold _ st hf
  · exact hf

lemma czeValT_scaleStep {terminals : List ℕ} {G : Graph ℕ}
    {rnd : ℕ → List ℕ × (ℕ → ℚ)} {i : ℕ} {st : CZState}
    (hf : czeValT terminals st.f) :
    czeValT terminals (scaleStep G terminals rnd i st).f := by
  unfold scaleStep
  have hfold : ∀ (cls : List (ℕ × List ℕ)) (st' : CZState),
      czeValT terminals st'.f →
      czeValT terminals ((cls.foldl (processCluster G) st').f) := by
    intro cls
    induction cls with
    | nil => intro st' h; exact h
    | cons c cls ih =>
        intro st' h
        rw [List.foldl_cons]
        exact ih _ (czeValT_processCluster h)
  exact hfold _ st hf

lemma czeLoop_valT {terminals : List ℕ} {G : Graph ℕ}
    {rnd : ℕ → List ℕ × (ℕ → ℚ)} :
    ∀ (fuel : List ℕ) (st st2 : CZState), czeValT terminals st.f →
      czeLoop G terminals rnd fuel st = some st2 → czeValT terminals st2.f := by
  intro fuel
  induction fuel with
  | nil =>
      intro st st2 hf h
      simp only [czeLoop] at h
      split at h
      · rw [Option.some_inj] at h
        subst h
        exact hf
      · exact Option.noConfusion h
  | cons i fuel ih =>
      intro st st2 hf h
      simp only [czeLoop] at h
      split at h
      · rw [Option.some_inj] at h
        subst h
        exact hf
      · exact ih _ _ (czeValT_scaleStep hf) h
/-- Properties of one labelled edge entering the aggregation loop. -/
def czeLabelProps (terminals : List ℕ) (l : Option ℕ × Option ℕ × ℚ) : Prop :=
  (∀ t, l.1 = some t → t ∈ terminals) ∧
  (∀ t, l.2.1 = some t → t ∈ terminals) ∧ 0 ≤ l.2.2

/-- Properties of one aggregated capacity entry. -/
def keyProps (terminals : List ℕ) (p : (ℕ × ℕ) × ℚ) : Prop :=
  (p.1.1 ∈ terminals ∧ p.1.2 ∈ terminals ∧ p.1.1 ≠ p.1.2) ∧ 0 ≤ p.2

lemma czeLabel_props {terminals : List ℕ} {f : List (ℕ × Option ℕ)}
    {e : ℕ × ℕ × ℚ} {l : Option ℕ × Option ℕ × ℚ}
    (hf : czeValT terminals f) (hc : 0 ≤ e.2.2)
    (h : czeLabel f e = some l) : czeLabelProps terminals l := by
  unfold czeLabel at h
  rcases ha : alookup f e.1 with _ | a <;> rw [ha] at h <;>
    rcases hb : alookup f e.2.1 with _ | b <;> rw [hb] at h
  · exact Option.noConfusion h
  · exact Option.noConfusion h
  · exact Option.noConfusion h
  · have h2 : some (a, b, e.2.2) = some l := h
    rw [Option.some_inj] at h2
    subst h2
    exact ⟨fun t ht => hf e.1 a ha t ht, fun t ht => hf e.2.1 b hb t ht, hc⟩

lemma czeAggFold_props {terminals : List ℕ} :
    ∀ (ls : List (Option ℕ × Option ℕ × ℚ)) (m : List ((ℕ × ℕ) × ℚ)),
    (∀ l ∈ ls, czeLabelProps terminals l) →
    (∀ p ∈ m, keyProps terminals p) →
    ∀ p ∈ ls.foldl (fun m l =>
      match l.1, l.2.1 with
      | some t1, some t2 =>
          if t1 = t2 then m else capBump m (sortedPair t1 t2) l.2.2
      | _, _ => m) m,
      keyProps terminals p := by
  intro ls
  induction ls with
  | nil => intro m _ hm; simpa using hm
  | cons l ls ih =>
      intro m hls hm
      rw [List.foldl_cons]
      obtain ⟨hl1, hl2, hl3⟩ := hls l (List.mem_cons.mpr (Or.inl rfl))
      have htail : ∀ l' ∈ ls, czeLabelProps terminals l' :=
        fun l' h => hls l' (List.mem_cons.mpr (Or.inr h))
      obtain ⟨o1, o2, c⟩ := l
      rcases o1 with _ | t1
      · exact ih m htail hm
      · rcases o2 with _ | t2
        · exact ih m htail hm
        · have ht1 : t1 ∈ terminals := hl1 t1 rfl
          have ht2 : t2 ∈ terminals := hl2 t2 rfl
          have hstep : ∀ p ∈ (if t1 = t2 then m
              else capBump m (sortedPair t1 t2) c), keyProps terminals p := by
            by_cases h12 : t1 = t2
            · rw [if_pos h12]
              exact hm
            · rw [if_neg h12]
              have hsp := sortedPair_props ht1 ht2 h12
              exact capBump_props
                (P := fun k => k.1 ∈ terminals ∧ k.2 ∈ terminals ∧ k.1 ≠ k.2)
                hm ⟨hsp.1, hsp.2.1, hsp.2.2⟩ hl3
          exact ih _ htail hstep

lemma czeAggregate_props {terminals : List ℕ}
    {ls : List (Option ℕ × Option ℕ × ℚ)}
    (hls : ∀ l ∈ ls, czeLabelProps terminals l) :
    ∀ p ∈ czeAggregate ls, keyProps terminals p := by
  unfold czeAggregate
  exact czeAggFold_props ls [] hls (by simp)

lemma czeHEdges_props {terminals : List ℕ} {G : Graph ℕ}
    {caps : List ((ℕ × ℕ) × ℚ)} {hes : List (ℕ × ℕ × ℚ × ℚ)}
    (hcapG : ∀ e ∈ G.edges, 0 ≤ e.2.2)
    (hcaps : ∀ p ∈ caps, keyProps terminals p)
    (h : czeHEdges G caps = some hes) :
    ∀ e ∈ hes, e.1 ≠ e.2.1 ∧ e.1 ∈ terminals ∧ e.2.1 ∈ terminals ∧
      0 ≤ e.2.2.1 ∧ 0 ≤ e.2.2.2 := by
  intro e he
  obtain ⟨p, hp, hgp⟩ := mapOpt_mem h e he
  obtain ⟨⟨hp1, hp2, hp3⟩, hp4⟩ := hcaps p hp
  rcases hd : distBF G p.1.1 p.1.2 with _ | d
  · rw [hd] at hgp
    exact Option.noConfusion hgp
  · rw [hd] at hgp
    have h2 : some (p.1.1, p.1.2, p.2, d) = some e := hgp
    rw [Option.some_inj] at h2
    subst h2
    exact ⟨hp3, hp1, hp2, hp4, distBF_nonneg hcapG hd⟩

lemma czeBuildH_props {terminals : List ℕ} {G : Graph ℕ}
    {f : List (ℕ × Option ℕ)} {H : HGraph}
    (hT : czeValT terminals f) (hcapG : ∀ e ∈ G.edges, 0 ≤ e.2.2)
    (h : czeBuildH G terminals f = some H) :
    H.nodes = terminals ∧
    ∀ e ∈ H.edges, e.1 ≠ e.2.1 ∧ e.1 ∈ terminals ∧ e.2.1 ∈ terminals ∧
      0 ≤ e.2.2.1 ∧ 0 ≤ e.2.2.2 := by
  unfold czeBuildH at h
  rcases hls : mapOpt (czeLabel f) G.edges with _ | ls
  · rw [hls] at h
    exact Option.noConfusion h
  · rw [hls] at h
    simp only [] at h
    rcases hhes : czeHEdges G (czeAggregate ls) with _ | hes
    · rw [hhes] at h
      exact Option.noConfusion h
    · rw [hhes] at h
      have h2 : some (⟨hes.foldl (fun ns e => addNode (addNode ns e.1) e.2.1)
          terminals, hes⟩ : HGraph) = some H := h
      rw [Option.some_inj] at h2
      subst h2
      have hlsprops : ∀ l ∈ ls, czeLabelProps terminals l := by
        intro l hl
        obtain ⟨e, he, hge⟩ := mapOpt_mem hls l hl
        exact czeLabel_props hT (hcapG e he) hge
      have hedges := czeHEdges_props hcapG (czeAggregate_props hlsprops) hhes
      constructor
      · exact nodesFold_fixed (fun e he => ⟨(hedges e he).2.1, (hedges e he).2.2.1⟩)
      · exact hedges
/-- Validity of the flow sparsifier under construction. -/
def flowHProp (terminals : List ℕ) (H : Graph ℕ) : Prop :=
  H.nodes = terminals ∧
  ∀ e ∈ H.edges, e.1 ≠ e.2.1 ∧ e.1 ∈ terminals ∧ e.2.1 ∈ terminals ∧ 0 ≤ e.2.2

lemma flowAggList_prop {terminals : List ℕ} {assign : List (ℕ × ℕ)} {nsQ : ℚ}
    (hns : 0 ≤ nsQ)
    (hAv : ∀ x s, alookup assign x = some s → s ∈ terminals) :
    ∀ (es : List (ℕ × ℕ × ℚ)) (H H2 : Graph ℕ),
    (∀ e ∈ es, 0 ≤ e.2.2) → flowHProp terminals H →
    flowAggList assign nsQ es H = .ok H2 → flowHProp terminals H2 := by
  intro es
  induction es with
  | nil =>
      intro H H2 _ hH h
      simp only [flowAggList, Except.ok.injEq] at h
      subst h
      exact hH
  | cons e es ih =>
      intro H H2 hcaps hH h
      simp only [flowAggList] at h
      rcases ha : alookup assign e.1 with _ | a <;> rw [ha] at h <;>
        rcases hb : alookup assign e.2.1 with _ | b <;> rw [hb] at h
      · exact Except.noConfusion h
      · exact Except.noConfusion h
      · exact Except.noConfusion h
      · have h3 : flowAggList assign nsQ es
            (if a = b then H
             else ⟨addNode (addNode H.nodes a) b,
                   bumpEdge H.edges a b (e.2.2 / nsQ)⟩) = .ok H2 := h
        have htail : ∀ e' ∈ es, 0 ≤ e'.2.2 :=
          fun e' h' => hcaps e' (List.mem_cons.mpr (Or.inr h'))
        by_cases hab : a = b
        · rw [if_pos hab] at h3
          exact ih _ _ htail hH h3
        · rw [if_neg hab] at h3
          have ha' : a ∈ terminals := hAv e.1 a ha
          have hb' : b ∈ terminals := hAv e.2.1 b hb
          have hnew : flowHProp terminals
              ⟨addNode (addNode H.nodes a) b,
               bumpEdge H.edges a b (e.2.2 / nsQ)⟩ := by
            constructor
            · show addNode (addNode H.nodes a) b = terminals
              rw [addNode_of_mem (show a ∈ H.nodes by rw [hH.1]; exact ha')]
              rw [addNode_of_mem (show b ∈ H.nodes by rw [hH.1]; exact hb')]
              exact hH.1
            · exact bumpEdge_props hH.2 hab ha' hb'
                (div_nonneg (hcaps e (List.mem_cons.mpr (Or.inl rfl))) hns)
          exact ih _ _ htail hnew h3

lemma flowSample_prop {terminals : List ℕ} {G : Graph ℕ} {nsQ : ℚ}
    {dfuel : List ℕ} {H H2 : Graph ℕ}
    (hns : 0 ≤ nsQ) (hcaps : ∀ e ∈ G.edges, 0 ≤ e.2.2)
    (hH : flowHProp terminals H)
    (h : flowSample G terminals nsQ dfuel H = .ok H2) :
    flowHProp terminals H2 := by
  unfold flowSample at h
  rcases hok : dijRun (spanningForest G) dfuel (dijInit terminals)
      with err | assign <;> rw [hok] at h
  · exact Except.noConfusion h
  · have hAv : ∀ x s, alookup assign x = some s → s ∈ terminals := by
      intro x s hxs
      obtain ⟨P1, _, _⟩ :=
        dijRun_ok_props (spanningForest G) terminals dfuel (dijInit terminals)
          assign (dijInit_inv _ _) hok
      exact (P1 x s hxs).1
    exact flowAggList_prop hns hAv G.edges H H2 hcaps hH h

lemma flowSamples_prop {terminals : List ℕ} {G : Graph ℕ} {nsQ : ℚ}
    {dfuel : List ℕ} (hns : 0 ≤ nsQ) (hcaps : ∀ e ∈ G.edges, 0 ≤ e.2.2) :
    ∀ (n : ℕ) (H H2 : Graph ℕ), flowHProp terminals H →
    flowSamples G terminals nsQ dfuel n H = .ok H2 → flowHProp terminals H2 := by
  intro n
  induction n with
  | zero =>
      intro H H2 hH h
      simp only [flowSamples, Except.ok.injEq] at h
      subst h
      exact hH
  | succ m ih =>
      intro H H2 hH h
      simp only [flowSamples] at h
      rcases hs : flowSample G terminals nsQ dfuel H with err | Hm <;> rw [hs] at h
      · exact Except.noConfusion h
      · exact ih _ _ (flowSample_prop hns hcaps hH hs) h
lemma cze_Gpair_eval :
    connectedZeroExtension Gpair [0, 1] (fun _ => ([], fun _ => 0)) []
      = some ([(0, some 0), (1, some 1)], ⟨[0, 1], [(0, 1, 1, 1)]⟩) := by
  norm_num [connectedZeroExtension, czeLoop, czeInit, czeBuildH, mapOpt,
    czeLabel, alookup, czeAggregate, capBump, sortedPair, czeHEdges, distBF,
    distTable, bfRounds, relaxAll, relaxEdge, insUpd, addNode, Gpair,
    List.filter_cons, List.foldl_cons, List.foldl_nil]

lemma flow_singleEdge_eval :
    flowSparsifier singleEdgeG [0, 1] (some 1) [0, 1, 2, 3, 4, 5]
      = .ok ⟨[0, 1], [(0, 1, 1)]⟩ := by
  simp only [flowSparsifier, resolveNumSamples]
  simp only [flowSamples, flowSample]
  rw [dij_singleEdge_eval]
  norm_num [flowAggList, alookup, bumpEdge, addNode, pmatchB, singleEdgeG,
    flowSamples]
/-- C7: sparsifier validity.  For every input graph with positive edge
capacities and non-empty terminal list, a sparsifier returned by
`connected_zero_extension` has vertex set exactly the terminal list, no
self-loops, terminal endpoints only, and non-negative capacity and weight
on every edge; and a sparsifier returned by `flow_sparsifier_min_cut` has
vertex set exactly the terminal list, no self-loops, terminal endpoints
only, and non-negative capacity on every edge. -/
theorem c7_sparsifier_validity :
    (∀ (G : Graph ℕ) (terminals : List ℕ) (rnd : ℕ → List ℕ × (ℕ → ℚ))
        (fuel : List ℕ) (f : List (ℕ × Option ℕ)) (H : HGraph),
      connectedZeroExtension G terminals rnd fuel = some (f, H) →
      (∀ e ∈ G.edges, 0 < e.2.2) → terminals ≠ [] →
      H.nodes = terminals ∧
      ∀ e ∈ H.edges, e.1 ≠ e.2.1 ∧ e.1 ∈ terminals ∧ e.2.1 ∈ terminals ∧
        0 ≤ e.2.2.1 ∧ 0 ≤ e.2.2.2) ∧
    (∀ (G : Graph ℕ) (terminals : List ℕ) (numSamples : Option ℕ)
        (dfuel : List ℕ) (H : Graph ℕ),
      flowSparsifier G terminals numSamples dfuel = .ok H →
      (∀ e ∈ G.edges, 0 < e.2.2) → terminals ≠ [] →
      H.nodes = terminals ∧
      ∀ e ∈ H.edges, e.1 ≠ e.2.1 ∧ e.1 ∈ terminals ∧ e.2.1 ∈ terminals ∧
        0 ≤ e.2.2) := by
  constructor
  · intro G terminals rnd fuel f H h hpos _
    have hcapG : ∀ e ∈ G.edges, 0 ≤ e.2.2 := fun e he => le_of_lt (hpos e he)
    unfold connectedZeroExtension at h
    rcases hloop : czeLoop G terminals rnd fuel (czeInit G terminals)
        with _ | st <;> rw [hloop] at h
    · exact Option.noConfusion h
    · simp only [] at h
      rcases hbuild : czeBuildH G terminals st.f with _ | H0 <;> rw [hbuild] at h
      · exact Option.noConfusion h
      · have h2 : some (st.f, H0) = some (f, H) := h
        rw [Option.some_inj] at h2
        have hH : H0 = H := congrArg Prod.snd h2
        subst hH
        have hT : czeValT terminals st.f :=
          czeLoop_valT fuel _ st (czeValT_init G terminals) hloop
        exact czeBuildH_props hT hcapG hbuild
  · intro G terminals numSamples dfuel H h hpos _
    have hcapG : ∀ e ∈ G.edges, 0 ≤ e.2.2 := fun e he => le_of_lt (hpos e he)
    simp only [flowSparsifier] at h
    exact flowSamples_prop (by positivity) hcapG
      (resolveNumSamples terminals numSamples) ⟨terminals, []⟩ H
      ⟨rfl, by simp⟩ h

/-- Witness for the C7 theorem: both builders at concrete inputs return
sparsifiers whose node list is exactly the terminal list. -/
theorem c7_witness :
    (∃ f H, connectedZeroExtension Gpair [0, 1] (fun _ => ([], fun _ => 0)) []
        = some (f, H) ∧ H.nodes = [0, 1]) ∧
    (∃ H, flowSparsifier singleEdgeG [0, 1] (some 1) [0, 1, 2, 3, 4, 5]
        = .ok H ∧ H.nodes = [0, 1]) := by
  constructor
  · refine ⟨[(0, some 0), (1, some 1)], ⟨[0, 1], [(0, 1, 1, 1)]⟩,
      cze_Gpair_eval, ?_⟩
    exact (c7_sparsifier_validity.1 Gpair [0, 1] (fun _ => ([], fun _ => 0)) []
      [(0, some 0), (1, some 1)] ⟨[0, 1], [(0, 1, 1, 1)]⟩ cze_Gpair_eval
      (by intro e he; simp only [Gpair, List.mem_cons, List.not_mem_nil,
        or_false] at he; subst he; norm_num) (by simp)).1
  · refine ⟨⟨[0, 1], [(0, 1, 1)]⟩, flow_singleEdge_eval, ?_⟩
    exact (c7_sparsifier_validity.2 singleEdgeG [0, 1] (some 1)
      [0, 1, 2, 3, 4, 5] ⟨[0, 1], [(0, 1, 1)]⟩ flow_singleEdge_eval
      (by intro e he; simp only [singleEdgeG, List.mem_cons, List.not_mem_nil,
        or_false] at he; subst he; norm_num) (by simp)).1
